import Mathlib

/-!
Verification development for the query-compilation and versioned-mutation core
of the graph knowledgebase importer.

The source under scrutiny consists of two JavaScript modules:
the query-parameter parsing module (flattenQueryParams, formatTraversal,
parseValue, parse) and the repository module (Follow, Clause, Comparison,
SelectionQuery, checkAccess, create, select, update, remove).

Embedding conventions:
  - JavaScript strings are Lean `String`s (ASCII payloads; JS UTF-16 length and
    Lean codepoint length agree on the inputs considered here).
  - JS `null`/`undefined` leaf values are `Option.none`.
  - JS objects used as ordered key/value maps become association lists
    `List (String × β)` with JS-object assignment semantics (`jsSet`:
    overwrite in place when the key exists, append otherwise).
  - Asynchronous database calls are abstracted: the record list a query
    execution returns becomes an explicit argument, and the orientdb
    transaction built by `update`/`remove` is applied to an explicit store
    state (a list of records).
  - Recursive procedures over the nested predicate/query trees are embedded
    with an explicit fuel argument (structural recursion on the fuel, a
    distinguished `outOfFuel` outcome when it runs out); the JS recursion
    always terminates on the embedded domain, and every theorem below is
    conditioned on a non-fuel result, so the fuel is semantically inert.
-/

set_option maxRecDepth 8192

namespace GKB

/-! ## Generic JS-flavoured helpers -/

/-- Association-list lookup, the embedding of JS property access `obj[k]`. -/
def jsGet {β : Type} (l : List (String × β)) (k : String) : Option β :=
  match l with
  | [] => none
  | (k', v) :: rest => if k' = k then some v else jsGet rest k

/-- Association-list upsert, the embedding of JS assignment `obj[k] = v`:
if the key is present its value is replaced in place (key order kept),
otherwise the pair is appended at the end. -/
def jsSet {β : Type} (l : List (String × β)) (k : String) (v : β) : List (String × β) :=
  match l with
  | [] => [(k, v)]
  | (k', v') :: rest => if k' = k then (k', v) :: rest else (k', v') :: jsSet rest k v

/-- Embedding of `String.prototype.split(sep)` for a one-character separator:
`"" → [""]`, `"a|" → ["a", ""]`, never returns the empty list. -/
def jsSplitCharAux (c : Char) : List Char → List Char → List (List Char)
  | [], acc => [acc.reverse]
  | d :: rest, acc =>
    if d = c then acc.reverse :: jsSplitCharAux c rest []
    else jsSplitCharAux c rest (d :: acc)

def jsSplitChar (c : Char) (s : String) : List String :=
  (jsSplitCharAux c s.data []).map (fun l => String.mk l)

mutual
/-- Embedding of a split on maximal whitespace runs (JS `split` with the
whitespace-run regexp), keeping empty leading/trailing segments exactly as JS
does (`" a" → ["", "a"]`, `"a b" → ["a", "b"]`, `"" → [""]`). -/
def jsSplitWsAux : List Char → List Char → List (List Char)
  | [], acc => [acc.reverse]
  | d :: rest, acc =>
    if d.isWhitespace then acc.reverse :: jsSplitWsRun rest
    else jsSplitWsAux rest (d :: acc)

/-- Continuation of `jsSplitWsAux` while inside a whitespace run. -/
def jsSplitWsRun : List Char → List (List Char)
  | [] => [[]]
  | d :: rest =>
    if d.isWhitespace then jsSplitWsRun rest
    else jsSplitWsAux rest [d]
end

def jsSplitWs (s : String) : List String :=
  (jsSplitWsAux s.data []).map (fun l => String.mk l)

/-- First-character test, the embedding of `s.startsWith(c)` for a single
character (Lean `String.startsWith` is byte-position based and is avoided so
that concrete runs reduce inside the kernel). -/
def charStartsWith (c : Char) (s : String) : Bool :=
  match s.data with
  | [] => false
  | d :: _ => d = c

/-- Decimal digit characters of a positive number, most significant first
(empty for 0); `fuel`-driven structural recursion with `fuel = n` sufficing. -/
def decCharsAux : Nat → Nat → List Char → List Char
  | 0, _, acc => acc
  | _ + 1, 0, acc => acc
  | fuel + 1, n + 1, acc =>
    decCharsAux fuel ((n + 1) / 10) (Nat.digitChar ((n + 1) % 10) :: acc)

/-- Embedding of JS number-to-string conversion for a nonnegative integer. -/
def natToStr (n : Nat) : String :=
  if n = 0 then String.mk [Char.ofNat 48] else String.mk (decCharsAux n n [])

/-- Decimal value of a digit list, used to invert `natToStr`. -/
def decVal (l : List Char) : Nat :=
  l.foldl (fun a c => a * 10 + (c.toNat - 48)) 0

/-! ## parseValue (query-parameter module)

Faithful embedding of `parseValue(attr, value)`.  The JS builtin
`decodeURIComponent` is an external collaborator and is taken as an explicit
function parameter `decode`; the attribute is passed through untouched and is
kept type-generic.  The JS input `value` is either a string or an array (the
array signalling a duplicated query key), captured by `QueryValue`. -/

/-- Operators from the schema constants module (only CONTAINSTEXT is ever
attached explicitly by parseValue; absent operator means default equality). -/
inductive POp where
  | containstext
deriving DecidableEq, Repr

/-- Boolean combinator tags for the plain clause objects parseValue builds. -/
inductive PBoolOp where
  | orOp
  | andOp
deriving DecidableEq, Repr

/-- Plain comparison/clause objects produced by parseValue (these are JS object
literals, not instances of the repository Comparison/Clause classes). -/
inductive PV (α : Type) where
  | comp (attr : α) (value : Option String) (op : Option POp) (negate : Bool)
  | clause (op : PBoolOp) (comparisons : List (PV α))

/-- AttributeError variants parseValue can raise, keyed by their messages. -/
inductive PErr where
  | duplicateParameter (count : Nat)
  | wordTooShortSplit (subValue : String)
  | wordTooShort
  | noValues
deriving DecidableEq, Repr

/-- JS input domain of parseValue: a single string or an array of strings. -/
inductive QueryValue where
  | str (s : String)
  | arr (l : List String)

/-- One iteration of the parseValue loop body on a single sub-value. -/
def parseSubValue {α : Type} (decode : String → String) (attr : α) (subValue0 : String) :
    Except PErr (PV α) :=
  let subValue1 := decode subValue0
  let negate := charStartsWith (Char.ofNat 33) subValue1
  let subValue2 := if negate then String.mk (subValue1.data.drop 1) else subValue1
  if charStartsWith (Char.ofNat 126) subValue2 then
    let subValue := String.mk (subValue2.data.drop 1)
    let wordList := jsSplitWs subValue
    if wordList.length > 1 then
      if wordList.any (fun word => word.length < 4) then
        .error (.wordTooShortSplit subValue)
      else
        .ok (.clause .andOp
          (wordList.map (fun word => .comp attr (some word) (some .containstext) negate)))
    else
      if subValue.length < 4 then .error .wordTooShort
      else
        let v := if subValue = "null" then none else some subValue
        .ok (.comp attr v (some .containstext) negate)
  else
    let v := if subValue2 = "null" then none else some subValue2
    .ok (.comp attr v none negate)

/-- Sequential processing of the sub-values of the `|`-split, collecting the
comparisons pushed onto the enclosing OR clause. -/
def parseSubValues {α : Type} (decode : String → String) (attr : α) :
    List String → Except PErr (List (PV α))
  | [] => .ok []
  | sv :: rest =>
    match parseSubValue decode attr sv with
    | .error e => .error e
    | .ok c =>
      match parseSubValues decode attr rest with
      | .error e => .error e
      | .ok cs => .ok (c :: cs)

/-- Embedding of `parseValue`.  An array input fails immediately; a string is
split on `|`, each sub-value parsed, and the result is the lone comparison
when exactly one was produced, an OR clause when more were, and the
"no values" AttributeError when none were (the `[]` branch below). -/
def parseValue {α : Type} (decode : String → String) (attr : α) :
    QueryValue → Except PErr (PV α)
  | .arr l => .error (.duplicateParameter l.length)
  | .str value =>
    match parseSubValues decode attr (jsSplitChar (Char.ofNat 124) value) with
    | .error e => .error e
    | .ok [] => .error .noValues
    | .ok [c] => .ok c
    | .ok cs => .ok (.clause .orOp cs)

/-! ## checkAccess (both copies of the access-control gate are this code) -/

/-- User as seen by the gate: an optional permission table mapping class names
to permission bitmasks (JS `user.permissions` falsy means no table). -/
structure DbUser where
  permissions : Option (List (String × Nat))

/-- The slice of the external ClassModel interface the gate reads. -/
structure ModelRef where
  name : String
  inherits : List String

/-- Embedding of `checkAccess(user, model, permissionsRequired)`; the bitwise
AND of JS 32-bit integers is `Nat.land` on the (nonnegative) bitmasks. -/
def checkAccess (user : DbUser) (model : ModelRef) (permissionsRequired : Nat) : Bool :=
  match user.permissions with
  | none => false
  | some perms =>
    if (match jsGet perms model.name with
        | some bits => permissionsRequired.land bits != 0
        | none => false) then
      true
    else
      model.inherits.any (fun n =>
        match jsGet perms n with
        | some bits => permissionsRequired.land bits != 0
        | none => false)

/-! ## select: exactlyN result-cardinality checking

The query construction and the round-trip to the store are external; the
embedding takes the record list the executed statement returned and applies
the exactlyN post-processing of `select` verbatim. -/

inductive DbErr where
  | noRecordFound
  | multipleRecordsFound
deriving DecidableEq, Repr

/-- Embedding of the tail of `select(db, opt)`: given `opt.exactlyN` and the
list the database returned, either pass the list through or fail. -/
def select {ρ : Type} (exactlyN : Option Nat) (recordList : List ρ) :
    Except DbErr (List ρ) :=
  match exactlyN with
  | none => .ok recordList
  | some n =>
    if recordList.length = 0 then
      if n = 0 then .ok [] else .error .noRecordFound
    else if n ≠ recordList.length then .error .multipleRecordsFound
    else .ok recordList

/-! ## Versioned mutations: update and remove

The store is a list of records; a record carries the orientdb-assigned
identity (`rid`), the bookkeeping fields and the model-formatted attribute
map.  `model.formatRecord(original, dropExtra)` on a record already in the
store is the identity on its persisted attributes.  The `where` predicate of
the mutation (a compiled SelectionQuery executed by the store) is abstracted
as a boolean predicate on records; `select` is called with its default
`activeOnly`, so only records without a deletion stamp can match. -/

structure DBRecord where
  rid : Nat
  createdAt : Nat
  createdBy : Nat
  deletedAt : Option Nat
  deletedBy : Option Nat
  history : Option Nat
  attrs : List (String × String)
deriving DecidableEq, Repr

/-- Application of an orientdb `.set(content)` step: each content field is
written over the attribute map. -/
def setAttrs (attrs : List (String × String)) (content : List (String × String)) :
    List (String × String) :=
  content.foldl (fun acc kv => jsSet acc kv.1 kv.2) attrs

/-- The select filter used by update/remove: the compiled where-predicate
plus the implicit active-record condition. -/
def matchesLive (pred : DBRecord → Bool) (r : DBRecord) : Bool :=
  pred r && r.deletedAt == none

/-- Embedding of `update(db, {content, model, user, where})`: select the unique
live match, create the deletion-stamped copy carrying the formatted
attributes, the original creator and the original history pointer, then update
the original record in place with `content` and point its history at the copy.
`freshRid` is the store-assigned identity of the new copy, `now` the
transaction timestamp, `userRid` the acting user's identity. -/
def update (db : List DBRecord) (pred : DBRecord → Bool)
    (content : List (String × String)) (userRid now freshRid : Nat) :
    Except DbErr (List DBRecord) :=
  match db.filter (matchesLive pred) with
  | [original] =>
    let copy : DBRecord :=
      { rid := freshRid
        createdAt := original.createdAt
        createdBy := original.createdBy
        deletedAt := some now
        deletedBy := some userRid
        history := match original.history with
                   | some h => some h
                   | none => none
        attrs := original.attrs }
    .ok ((db ++ [copy]).map (fun r =>
      if r.rid = original.rid then
        { r with attrs := setAttrs r.attrs content, history := some freshRid }
      else r))
  | [] => .error .noRecordFound
  | _ => .error .multipleRecordsFound

/-- Embedding of `remove(db, {model, user, where})` on the path where `where`
carries no `@rid`: select the unique live match, then update it in place
setting only the deletion timestamp and closer.  No record is created. -/
def remove (db : List DBRecord) (pred : DBRecord → Bool) (userRid now : Nat) :
    Except DbErr (List DBRecord) :=
  match db.filter (matchesLive pred) with
  | [original] =>
    .ok (db.map (fun r =>
      if r.rid = original.rid then
        { r with deletedAt := some now, deletedBy := some userRid }
      else r))
  | [] => .error .noRecordFound
  | _ => .error .multipleRecordsFound

/-! ## Follow: traversal directives -/

/-- Edge directions accepted by the Follow constructor. -/
inductive Dir where
  | inDir
  | outDir
  | both
deriving DecidableEq, Repr

def Dir.str : Dir → String
  | .inDir => "in"
  | .outDir => "out"
  | .both => "both"

/-- A Follow object: edge class names, direction, depth bound (none for
unbounded) and the active-only flag. -/
structure FollowF where
  classnames : List String
  type : Dir
  depth : Option Nat
  activeOnly : Bool
deriving DecidableEq, Repr

/-- The fixed fuzzy-equivalence edge classes. -/
def FUZZY_CLASSES : List String := ["AliasOf", "DeprecatedBy"]

/-- Embedding of `Follow.parse(query)`: ancestors give one unbounded inward
hop, descendants one unbounded outward hop, and a truthy `fuzzyMatch` (present
and nonzero, by JS truthiness) gives a bounded bidirectional hop over the
fuzzy classes, spliced before and after each existing hop sequence when any
exist and standing alone otherwise. -/
def followParse (ancestors descendants : Option (List String))
    (fuzzyMatch : Option Nat) (activeOnly : Bool) : List (List FollowF) :=
  let follow :=
    (match ancestors with
     | some a => [[⟨a, .inDir, none, activeOnly⟩]]
     | none => []) ++
    (match descendants with
     | some d => [[⟨d, .outDir, none, activeOnly⟩]]
     | none => [])
  match fuzzyMatch with
  | none => follow
  | some n =>
    if n = 0 then follow
    else
      let fuzzy : FollowF := ⟨FUZZY_CLASSES, .both, some n, activeOnly⟩
      if follow.length = 0 then [[fuzzy]]
      else follow.map (fun followArr => fuzzy :: (followArr ++ [fuzzy]))

/-! ## Comparison / Clause predicate trees (repository classes)

`CC` is the closed variant of the repository's Comparison and Clause classes:
a Comparison holds a value (null embedded as `none`), an operator (`=` or `~`,
the only two the Comparison constructor accepts) and a negate flag; a Clause
holds a boolean combinator and its ordered children.  Serialization is
embedded with a fuel argument so concrete runs reduce in the kernel. -/

inductive COp where
  | eq
  | containstext
deriving DecidableEq, Repr

inductive ClauseOp where
  | orOp
  | andOp
deriving DecidableEq, Repr

def ClauseOp.str : ClauseOp → String
  | .orOp => "OR"
  | .andOp => "AND"

inductive CC where
  | cmp (value : Option String) (op : COp) (negate : Bool)
  | cls (type : ClauseOp) (comparisons : List CC)

/-- The clause-wrapping test of the serializers:
`comp instanceof Clause && comp.length > 1`. -/
def ccIsMultiClause : CC → Bool
  | .cls _ children => decide (children.length > 1)
  | .cmp _ _ _ => false

/-- Bound-parameter name for index `i` (JS template `param${i}`). -/
def paramName (i : Nat) : String := "param" ++ natToStr i

/-- Errors raised while building or serializing a selection query;
`typeError` stands for a raw JS TypeError crash (reading a member of
undefined), `unmodelled` flags an input outside the embedded domain, and
`outOfFuel` is the inert embedding artefact. -/
inductive SErr where
  | attributeError (msg : String)
  | typeError
  | unmodelled
  | outOfFuel
deriving DecidableEq, Repr

/-- Embedding of `Comparison.prototype.toString(name, paramIndex,
listableType)`: a null value renders as an IS NULL / CONTAINS NULL form and
binds nothing, otherwise one numbered parameter is bound; negation wraps the
rendering in a boolean NOT. -/
def cmpToStr (value : Option String) (op : COp) (negate : Bool)
    (name : String) (paramIndex : Nat) (listableType : Bool) :
    String × List (String × Option String) :=
  let pname := paramName paramIndex
  let res :=
    if listableType then
      match value with
      | none => (name ++ " CONTAINS NULL", ([] : List (String × Option String)))
      | some v => (name ++ " CONTAINS :" ++ pname, [(pname, some v)])
    else
      match value with
      | some v =>
        (name ++ " " ++ (match op with
          | .containstext => "CONTAINSTEXT"
          | .eq => "=") ++ " :" ++ pname, [(pname, some v)])
      | none => (name ++ " IS NULL", ([] : List (String × Option String)))
  if negate then ("NOT (" ++ res.1 ++ ")", res.2) else res

/-- Embedding of the loop body of `Clause.prototype.toString`: each child is
serialized at the paramIndex advanced by the number of parameters bound so
far, a child that is a Clause with more than one grandchild is wrapped in
parentheses, and component strings and parameter maps accumulate in order. -/
def ccComponents : Nat → List CC → String → Nat → Bool →
    Except SErr (List String × List (String × Option String))
  | _, [], _, _, _ => .ok ([], [])
  | 0, _ :: _, _, _, _ => .error .outOfFuel
  | fuel + 1, c :: rest, name, paramIndex, listableType =>
    match (match c with
           | .cmp v op neg => Except.ok (cmpToStr v op neg name paramIndex listableType)
           | .cls ty children =>
             match ccComponents fuel children name paramIndex listableType with
             | .error e => .error e
             | .ok (qs, ps) =>
               .ok (String.intercalate (" " ++ ty.str ++ " ") qs, ps)) with
    | .error e => .error e
    | .ok (q, ps) =>
      let q1 := if ccIsMultiClause c then "(" ++ q ++ ")" else q
      match ccComponents fuel rest name (paramIndex + ps.length) listableType with
      | .error e => .error e
      | .ok (qs, ps2) => .ok (q1 :: qs, ps ++ ps2)

/-- Embedding of `(Comparison|Clause).prototype.toString`: a Comparison
renders directly, a Clause joins its serialized children with its combinator
(this top-level call adds no surrounding parentheses). -/
def ccToStr (fuel : Nat) (c : CC) (name : String) (paramIndex : Nat)
    (listableType : Bool) : Except SErr (String × List (String × Option String)) :=
  match c with
  | .cmp v op neg => .ok (cmpToStr v op neg name paramIndex listableType)
  | .cls ty children =>
    match ccComponents fuel children name paramIndex listableType with
    | .error e => .error e
    | .ok (qs, ps) => .ok (String.intercalate (" " ++ ty.str ++ " ") qs, ps)

/-- Embedding of `applyCast` over the children list of a Clause. -/
def ccApplyCastL : Nat → (Option String → Option String) → List CC → Option (List CC)
  | _, _, [] => some []
  | 0, _, _ :: _ => none
  | fuel + 1, f, c :: rest =>
    match (match c with
           | CC.cmp v op neg => some (CC.cmp (f v) op neg)
           | CC.cls ty children =>
             match ccApplyCastL fuel f children with
             | none => none
             | some cs => some (CC.cls ty cs)) with
    | none => none
    | some c1 =>
      match ccApplyCastL fuel f rest with
      | none => none
      | some rest1 => some (c1 :: rest1)

/-- Embedding of `(Comparison|Clause).prototype.applyCast(cast)`: the cast
function is applied to every comparison value in the tree. -/
def ccApplyCast (fuel : Nat) (f : Option String → Option String) (c : CC) : Option CC :=
  match c with
  | .cmp v op neg => some (.cmp (f v) op neg)
  | .cls ty children =>
    match ccApplyCastL fuel f children with
    | none => none
    | some cs => some (.cls ty cs)

/-! ## Follow rendering -/

def quoteChar : Char := Char.ofNat 39

/-- Embedding of `quoteWrap`: wrap a string in single quotation marks. -/
def quoteWrap (s : String) : String :=
  String.singleton quoteChar ++ s ++ String.singleton quoteChar

/-- Embedding of `Follow.prototype.toString`. -/
def followToStr (f : FollowF) : String :=
  let classesString := String.intercalate ", " (f.classnames.map quoteWrap)
  match f.depth with
  | none =>
    if f.activeOnly then
      "." ++ f.type.str ++ "(" ++ classesString ++ ")\x7bwhile: ($matched." ++
        f.type.str ++ "(" ++ classesString ++ ").size() > 0 AND $matched.deletedAt IS NULL)\x7d"
    else
      "." ++ f.type.str ++ "(" ++ classesString ++ ")\x7bwhile: ($matched." ++
        f.type.str ++ "(" ++ classesString ++ ").size() > 0)\x7d"
  | some d =>
    if f.activeOnly then
      "." ++ f.type.str ++ "(" ++ classesString ++ ")\x7bwhile: ($depth < " ++
        natToStr d ++ " AND $matched.deletedAt IS NULL)\x7d"
    else
      "." ++ f.type.str ++ "(" ++ classesString ++ ")\x7bwhile: ($depth < " ++
        natToStr d ++ ")\x7d"

/-! ## External ClassModel interface -/

mutual
/-- The slice of the external ClassModel interface the query compiler reads:
class name, declared property names, property definitions (type tag and
optional linked model), value-cast functions, edge flag. -/
inductive ClassModel : Type where
  | mk (name : String) (propertyNames : List String)
       (properties : List (String × PropDefn))
       (cast : List (String × (Option String → Option String)))
       (isEdge : Bool)

inductive PropDefn : Type where
  | mk (ptype : String) (linkedModel : Option ClassModel)
end

def ClassModel.name : ClassModel → String
  | .mk n _ _ _ _ => n

def ClassModel.propertyNames : ClassModel → List String
  | .mk _ p _ _ _ => p

def ClassModel.properties : ClassModel → List (String × PropDefn)
  | .mk _ _ p _ _ => p

def ClassModel.cast : ClassModel → List (String × (Option String → Option String))
  | .mk _ _ _ c _ => c

def PropDefn.ptype : PropDefn → String
  | .mk t _ => t

def PropDefn.linkedModel : PropDefn → Option ClassModel
  | .mk _ lm => lm

/-! ## SelectionQuery -/

mutual
/-- The state a constructed SelectionQuery carries into serialization: target
model name, the merged property-type map (`this.properties`, projected to the
type tags serialization reads), the conditions map, the traversal
alternatives, pagination skip and the optional projection. -/
inductive SelQ : Type where
  | mk (modelName : String) (props : List (String × String))
       (conditions : List (String × Cond))
       (follow : List (List FollowF))
       (skip : Option Nat)
       (returnProperties : Option (List String))

/-- A conditions-map entry: a Comparison/Clause tree or a nested subquery. -/
inductive Cond : Type where
  | cc (c : CC)
  | sub (q : SelQ)
end

def SelQ.modelName : SelQ → String
  | .mk n _ _ _ _ _ => n

def SelQ.props : SelQ → List (String × String)
  | .mk _ p _ _ _ _ => p

def SelQ.conditions : SelQ → List (String × Cond)
  | .mk _ _ c _ _ _ => c

def SelQ.follow : SelQ → List (List FollowF)
  | .mk _ _ _ f _ _ => f

def SelQ.skipN : SelQ → Option Nat
  | .mk _ _ _ _ s _ => s

def SelQ.returnProperties : SelQ → Option (List String)
  | .mk _ _ _ _ _ r => r

/-- Values of the constructor's input-query object: a raw leaf value, an
already-built Comparison/Clause, a string list (traversal directives and
returnProperties) or a number (fuzzyMatch). -/
inductive InVal where
  | raw (v : Option String)
  | cc (c : CC)
  | strList (l : List String)
  | natv (n : Nat)

/-- Constructor options `{activeOnly, skip}` (absent fields are `none`). -/
structure SQOpt where
  activeOnly : Option Bool
  skip : Option Nat

/-- Embedding of `getParameterPrefix`: split `a.b` (exactly one dot, both
sides nonempty) into prefix and suffix, otherwise return the whole name. -/
def paramPrefixParts (p : String) : String × Option String :=
  match jsSplitChar (Char.ofNat 46) p with
  | [a, b] => if a = "" ∨ b = "" then (p, none) else (a, some b)
  | _ => (p, none)

def SPECIAL_QUERY_ARGS : List String :=
  ["fuzzyMatch", "ancestors", "descendants", "returnProperties", "limit",
   "skip", "neighbors", "includeHistory"]

/-- Defaulting of a raw condition value to an equality Comparison (the JS
`new Comparison(value)`); a list or number value under equality wrapping is
outside the embedded domain. -/
def wrapVal : InVal → Except SErr InVal
  | .raw v => .ok (.cc (.cmp v .eq false))
  | .cc c => .ok (.cc c)
  | _ => .error .unmodelled

/-- Embedding of the constructor's condition loop: special keys are skipped,
other values are defaulted to an equality Comparison unless the suffix is a
special key or the value is already a Comparison/Clause, the prefix is
validated against the declared property names (plus `@rid`/`@class`), and an
entry goes to the subquery group of its prefix when the prefix is link-typed
and a suffix is present, to the conditions map otherwise. -/
def condLoop (model : ClassModel) :
    List (String × InVal) → List (String × Cond) →
    List (String × (ClassModel × List (String × InVal))) →
    Except SErr (List (String × Cond) × List (String × (ClassModel × List (String × InVal))))
  | [], conds, subqs => .ok (conds, subqs)
  | (name, value) :: rest, conds, subqs =>
    if SPECIAL_QUERY_ARGS.contains name then condLoop model rest conds subqs
    else
      match paramPrefixParts name with
      | (pre, suf) =>
        if !(model.propertyNames.contains pre) &&
            !((["@rid", "@class"] : List String).contains pre) then
          .error (.attributeError ("unexpected attribute"))
        else
          match suf with
          | some sfx =>
            match jsGet model.properties pre with
            | none => .error .typeError
            | some pd =>
              match pd.linkedModel with
              | some lm =>
                match (if SPECIAL_QUERY_ARGS.contains sfx then Except.ok value
                       else wrapVal value) with
                | .error e => .error e
                | .ok value1 =>
                  let cur := match jsGet subqs pre with
                    | some entry => entry.2
                    | none => []
                  condLoop model rest conds (jsSet subqs pre (lm, jsSet cur sfx value1))
              | none =>
                match (if SPECIAL_QUERY_ARGS.contains sfx then Except.ok value
                       else wrapVal value) with
                | .error e => .error e
                | .ok (InVal.cc c) => condLoop model rest (jsSet conds name (.cc c)) subqs
                | .ok _ => .error SErr.unmodelled
          | none =>
            match wrapVal value with
            | .error e => .error e
            | .ok (InVal.cc c) => condLoop model rest (jsSet conds name (.cc c)) subqs
            | .ok _ => .error SErr.unmodelled

/-- Embedding of the cast pass closing the constructor: every conditions entry
that is not a nested subquery and whose name has a cast function gets the cast
applied over its comparison values. -/
def applyCasts (fuel : Nat)
    (cast : List (String × (Option String → Option String))) :
    List (String × Cond) → Option (List (String × Cond))
  | [] => some []
  | (n, c) :: rest =>
    match (match c with
           | Cond.sub q => some (Cond.sub q)
           | Cond.cc cmp =>
             match jsGet cast n with
             | some f =>
               match ccApplyCast fuel f cmp with
               | none => none
               | some cmp1 => some (Cond.cc cmp1)
             | none => some (Cond.cc cmp)) with
    | none => none
    | some c2 =>
      match applyCasts fuel cast rest with
      | none => none
      | some rest1 => some ((n, c2) :: rest1)

/-- Embedding of the per-prefix subquery inlining: when a nested subquery
needs no traversal, each of its conditions is copied to the parent under the
dotted name, its property definition and (when present) cast carried over. -/
def inlineSub (name : String) (lm : ClassModel) :
    List (String × Cond) → List (String × Cond) → List (String × String) →
    List (String × (Option String → Option String)) →
    (List (String × Cond) × List (String × String) ×
     List (String × (Option String → Option String)))
  | [], conds, props, cast => (conds, props, cast)
  | (subPropName, subCond) :: rest, conds, props, cast =>
    let combined := name ++ "." ++ subPropName
    let conds1 := jsSet conds combined subCond
    let props1 := match jsGet lm.properties subPropName with
      | some pd => jsSet props combined pd.ptype
      | none => props
    let cast1 := match jsGet lm.cast subPropName with
      | some f => jsSet cast combined f
      | none => cast
    inlineSub name lm rest conds1 props1 cast1

mutual
/-- Embedding of the SelectionQuery constructor.  `inputQuery0` is the JS
`inputQuery` object as an ordered map; special keys are read off the same
map, `activeOnly` (default true) with a declared `deletedAt` property forces
the deletedAt entry of the input query to null (the JS `inputQuery.deletedAt
= null` assignment) before the condition loop runs, then link-prefixed groups
are recursively compiled and either inlined (no traversal) or kept as genuine
subqueries, and casts are applied to the final conditions. -/
def mkSelQ : Nat → ClassModel → List (String × InVal) → SQOpt → Except SErr SelQ
  | 0, _, _, _ => .error .outOfFuel
  | fuel + 1, model, inputQuery0, opt =>
    let activeOnly := opt.activeOnly.getD true
    let skip : Option Nat := match opt.skip with
      | some n => if n = 0 then none else some n
      | none => none
    let returnProperties : Option (List String) :=
      match jsGet inputQuery0 ("returnProperties") with
      | some (.strList l) => some l
      | _ => none
    if (returnProperties.getD []).any (fun p => !(model.propertyNames.contains p)) then
      .error (.attributeError ("invalid return property"))
    else
      let inputQuery :=
        if activeOnly && model.propertyNames.contains ("deletedAt") then
          jsSet inputQuery0 ("deletedAt") (.raw none)
        else inputQuery0
      match condLoop model inputQuery [] [] with
      | .error e => .error e
      | .ok (conds0, subqs) =>
        let ancestors := match jsGet inputQuery ("ancestors") with
          | some (.strList l) => some l
          | _ => none
        let descendants := match jsGet inputQuery ("descendants") with
          | some (.strList l) => some l
          | _ => none
        let fuzzy := match jsGet inputQuery ("fuzzyMatch") with
          | some (.natv n) => some n
          | _ => none
        let follow := followParse ancestors descendants fuzzy activeOnly
        let props0 := model.properties.map (fun p => (p.1, (p.2).ptype))
        match mkSubqueries fuel activeOnly subqs conds0 props0 model.cast with
        | .error e => .error e
        | .ok (conds1, props1, cast1) =>
          match applyCasts fuel cast1 conds1 with
          | none => .error .outOfFuel
          | some conds2 =>
            .ok (.mk model.name props1 conds2 follow skip returnProperties)

/-- Embedding of the constructor's subquery pass. -/
def mkSubqueries : Nat → Bool →
    List (String × (ClassModel × List (String × InVal))) →
    List (String × Cond) → List (String × String) →
    List (String × (Option String → Option String)) →
    Except SErr (List (String × Cond) × List (String × String) ×
      List (String × (Option String → Option String)))
  | _, _, [], conds, props, cast => .ok (conds, props, cast)
  | 0, _, _ :: _, _, _, _ => .error .outOfFuel
  | fuel + 1, activeOnly, (name, (lm, whereList)) :: rest, conds, props, cast =>
    match mkSelQ fuel lm whereList ⟨some activeOnly, none⟩ with
    | .error e => .error e
    | .ok subq =>
      if subq.follow.length = 0 then
        let step := inlineSub name lm subq.conditions conds props cast
        mkSubqueries fuel activeOnly rest step.1 step.2.1 step.2.2
      else
        mkSubqueries fuel activeOnly rest (jsSet conds name (.sub subq)) props cast
end

/-! ## SelectionQuery serialization -/

/-- The container-type test `^(embedded|link)(list|set|map|bag)$`. -/
def isListType (t : String) : Bool :=
  (["embeddedlist", "embeddedset", "embeddedmap", "embeddedbag",
    "linklist", "linkset", "linkmap", "linkbag"] : List String).contains t

/-- Prefix test over character lists. -/
def startsWithList : List Char → List Char → Bool
  | _, [] => true
  | [], _ :: _ => false
  | c :: cs, d :: ds => c = d && startsWithList cs ds

/-- Substring occurrence over character lists. -/
def containsSub : List Char → List Char → Bool
  | [], sub => sub.isEmpty
  | c :: rest, sub => startsWithList (c :: rest) sub || containsSub rest sub

/-- Embedding of `String.prototype.includes`. -/
def strIncludes (s sub : String) : Bool := containsSub s.data sub.data

/-- Embedding of `String.prototype.trim` (character-list based). -/
def jsTrim (s : String) : String :=
  String.mk (((s.data.dropWhile Char.isWhitespace).reverse.dropWhile
    Char.isWhitespace).reverse)

/-- Embedding of `looksLikeRID` (with its default `requireHash=false`): the
trimmed string matches an optional hash, digits, a colon and digits. -/
def looksLikeRID (rid : String) : Bool :=
  let l := (jsTrim rid).data
  let l1 := match l with
    | c :: rest => if c = Char.ofNat 35 then rest else c :: rest
    | [] => []
  let ds := l1.takeWhile Char.isDigit
  let rest := l1.dropWhile Char.isDigit
  decide (ds.length > 0) &&
    (match rest with
     | c :: tl => c = Char.ofNat 58 && decide (tl.length > 0) && tl.all Char.isDigit
     | [] => false)

/-- Embedding of `new RID('#' + value.replace(/^#/, ''))`, as the normalized
identifier string. -/
def ridNormalize (v : String) : String :=
  String.mk (Char.ofNat 35 :: (match v.data with
    | c :: rest => if c = Char.ofNat 35 then rest else c :: rest
    | [] => []))

/-- The RID validation/conversion loop of `conditionClause` on a link-typed
property: every non-null bound value must look like a record identifier and is
converted; a mismatch raises an AttributeError. -/
def ridParams : List (String × Option String) →
    Except SErr (List (String × Option String))
  | [] => .ok []
  | (pname, v) :: rest =>
    match v with
    | none =>
      match ridParams rest with
      | .error e => .error e
      | .ok r => .ok ((pname, none) :: r)
    | some s =>
      if looksLikeRID s then
        match ridParams rest with
        | .error e => .error e
        | .ok r => .ok ((pname, some (ridNormalize s)) :: r)
      else .error (.attributeError ("expects an RID or null"))

/-- Embedding of `SelectionQuery.prototype.conditionClause`. -/
def conditionClause (fuel : Nat) (props : List (String × String))
    (name : String) (value : CC) (paramIndex : Nat) :
    Except SErr (String × List (String × Option String)) :=
  match jsGet props name with
  | none => .error (.attributeError ("property is not defined on this model"))
  | some ptype =>
    if ptype = "" then .error (.attributeError ("property is not defined on this model"))
    else
      match ccToStr fuel value name paramIndex (isListType ptype) with
      | .error e => .error e
      | .ok (q, params) =>
        if strIncludes ptype ("link") then
          match ridParams params with
          | .error e => .error e
          | .ok params1 => .ok (q, params1)
        else .ok (q, params)

/-- The deterministic iteration order of `toString`: condition names are
sorted (here the name-carrying pairs are sorted by name, which agrees with
sorting the names and indexing the object when the keys are distinct, as they
are for a JS object; any correct comparison sort yields this same list, so
the embedding uses a structurally recursive one). -/
def sortConds (conds : List (String × Cond)) : List (String × Cond) :=
  List.insertionSort (fun a b => a.1 ≤ b.1) conds

/-- Embedding of the statement assembly tail of `toString`: a plain SELECT
with an optional WHERE when no traversal is required, a MATCH over the
per-alternative graph patterns otherwise (wrapped in an outer SELECT when a
projection was requested), and the optional skip suffix. -/
def assembleStatement (modelName : String) (follow : List (List FollowF))
    (skip : Option Nat) (returnProperties : Option (List String))
    (conditions : List String) : String :=
  let selectionElements := match returnProperties with
    | some l => String.intercalate ", " l
    | none => "*"
  let queryString :=
    if follow.length > 0 then
      let pre :=
        if conditions.length > 0 then
          "\x7bclass: " ++ modelName ++ ", where: (" ++
            String.intercalate " AND " conditions ++ ")\x7d"
        else "\x7bclass: " ++ modelName ++ "\x7d"
      let expressions := follow.map (fun arr => pre ++ String.join (arr.map followToStr))
      let m := "MATCH " ++ String.intercalate ", " expressions ++ " RETURN $pathElements"
      if selectionElements ≠ "*" then
        "SELECT " ++ selectionElements ++ " FROM (" ++ m ++ ")"
      else m
    else
      let base := "SELECT " ++ selectionElements ++ " FROM " ++ modelName
      if conditions.length > 0 then
        base ++ " WHERE " ++ String.intercalate " AND " conditions
      else base
  match skip with
  | some n => queryString ++ " skip " ++ natToStr n
  | none => queryString

/-- Embedding of the conditions loop of `toString`: conditions are emitted in
sorted-name order, a nested subquery renders as `attr IN (SELECT @rid FROM
(<nested statement>))`, a Clause with more than one child is parenthesized,
and the parameter start index advances by the number of parameters each clause
bound. -/
def condsToStr : Nat → List (String × String) → List (String × Cond) → Nat →
    Except SErr (List String × List (String × Option String))
  | _, _, [], _ => .ok ([], [])
  | 0, _, _ :: _, _ => .error .outOfFuel
  | fuel + 1, props, (attr, cond) :: rest, paramStartIndex =>
    match (match cond with
           | Cond.sub (SelQ.mk mn props2 conds2 follow2 skip2 retProps2) =>
             (match condsToStr fuel props2 (sortConds conds2) paramStartIndex with
              | .error e => Except.error e
              | .ok (condStrs, ps) =>
                Except.ok (attr ++ " IN (SELECT @rid FROM (" ++
                  assembleStatement mn follow2 skip2 retProps2 condStrs ++ "))", ps) :
              Except SErr (String × List (String × Option String)))
           | Cond.cc c =>
             match conditionClause fuel props attr c paramStartIndex with
             | .error e => Except.error e
             | .ok (q, ps) =>
               Except.ok ((if ccIsMultiClause c then "(" ++ q ++ ")" else q), ps)) with
    | .error e => .error e
    | .ok (qstr, ps) =>
      match condsToStr fuel props rest (paramStartIndex + ps.length) with
      | .error e => .error e
      | .ok (qs, ps2) => .ok (qstr :: qs, ps ++ ps2)

/-- Embedding of `SelectionQuery.prototype.toString(paramStartIndex)`. -/
def sqToStr (fuel : Nat) (q : SelQ) (paramStartIndex : Nat) :
    Except SErr (String × List (String × Option String)) :=
  match q with
  | .mk mn props conds follow skip retProps =>
    match condsToStr fuel props (sortConds conds) paramStartIndex with
    | .error e => .error e
    | .ok (condStrs, params) =>
      .ok (assembleStatement mn follow skip retProps condStrs, params)

/-! ## Supporting lemmas -/

theorem jsSplitCharAux_ne_nil (c : Char) : ∀ (l acc : List Char), jsSplitCharAux c l acc ≠ []
  | [], acc => by simp [jsSplitCharAux]
  | d :: rest, acc => by
    unfold jsSplitCharAux
    split
    · simp
    · exact jsSplitCharAux_ne_nil c rest (d :: acc)

theorem jsSplitChar_ne_nil (c : Char) (s : String) : jsSplitChar c s ≠ [] := by
  unfold jsSplitChar
  simp only [ne_eq, List.map_eq_nil_iff]
  exact jsSplitCharAux_ne_nil c s.data []

theorem parseSubValue_ne_noValues {α : Type} (decode : String → String) (attr : α)
    (sv : String) : parseSubValue decode attr sv ≠ .error .noValues := by
  intro h
  simp only [parseSubValue] at h
  repeat' split at h
  all_goals simp at h

theorem parseSubValues_error {α : Type} (decode : String → String) (attr : α) :
    ∀ (l : List String) (e : PErr), parseSubValues decode attr l = .error e → e ≠ .noValues
  | [], e => by simp [parseSubValues]
  | sv :: rest, e => by
    unfold parseSubValues
    cases hc : parseSubValue decode attr sv with
    | error eSub =>
      intro h heq
      simp only [Except.error.injEq] at h
      subst h
      exact parseSubValue_ne_noValues decode attr sv (heq ▸ hc)
    | ok c =>
      cases hcs : parseSubValues decode attr rest with
      | error eRest =>
        intro h
        simp only [Except.error.injEq] at h
        subst h
        exact parseSubValues_error decode attr rest eRest hcs
      | ok cs => simp

theorem parseSubValues_ok_length {α : Type} (decode : String → String) (attr : α) :
    ∀ (l : List String) (comps : List (PV α)),
      parseSubValues decode attr l = .ok comps → comps.length = l.length
  | [], comps => by
    unfold parseSubValues
    intro h
    injection h with h
    subst h
    rfl
  | sv :: rest, comps => by
    unfold parseSubValues
    cases hc : parseSubValue decode attr sv with
    | error e => simp
    | ok c =>
      cases hcs : parseSubValues decode attr rest with
      | error e => simp
      | ok cs =>
        intro h
        injection h with h
        subst h
        simp [parseSubValues_ok_length decode attr rest cs hcs]

theorem parseSubValues_congr {α : Type} (decode : String → String) (attr : α) :
    ∀ (l : List String), (∀ sv ∈ l, decode sv = sv) →
      parseSubValues decode attr l = parseSubValues id attr l
  | [], _ => rfl
  | sv :: rest, h => by
    have hsv : decode sv = sv := h sv (List.mem_cons_self sv rest)
    have hrest := parseSubValues_congr decode attr rest
      (fun x hx => h x (List.mem_cons_of_mem sv hx))
    have hone : parseSubValue decode attr sv = parseSubValue id attr sv := by
      unfold parseSubValue
      rw [hsv]
      rfl
    unfold parseSubValues
    rw [hone, hrest]

/-! ## Association-list lemmas -/

theorem jsGet_jsSet_self {β : Type} (l : List (String × β)) (k : String) (v : β) :
    jsGet (jsSet l k v) k = some v := by
  induction l with
  | nil => simp [jsSet, jsGet]
  | cons p rest ih =>
    obtain ⟨k', v'⟩ := p
    by_cases h : k' = k
    · subst h
      simp [jsSet, jsGet]
    · simp only [jsSet, if_neg h, jsGet]
      exact ih

theorem jsGet_jsSet_ne {β : Type} (l : List (String × β)) (k k' : String) (v : β)
    (h : k' ≠ k) : jsGet (jsSet l k v) k' = jsGet l k' := by
  induction l with
  | nil =>
    simp only [jsSet, jsGet]
    rw [if_neg (fun he => h he.symm)]
  | cons p rest ih =>
    obtain ⟨k0, v0⟩ := p
    by_cases h0 : k0 = k
    · subst h0
      simp only [jsSet, if_pos rfl, jsGet]
      rw [if_neg (fun he => h he.symm), if_neg (fun he => h he.symm)]
    · simp only [jsSet, if_neg h0, jsGet]
      by_cases h1 : k0 = k'
      · rw [if_pos h1, if_pos h1]
      · rw [if_neg h1, if_neg h1]
        exact ih

theorem jsGet_cons_ne {β : Type} (rest : List (String × β)) (name k : String) (v : β)
    (h : name ≠ k) : jsGet ((name, v) :: rest) k = jsGet rest k := by
  simp only [jsGet]
  rw [if_neg h]

theorem jsGet_eq_none {β : Type} (l : List (String × β)) (k : String)
    (h : k ∉ l.map Prod.fst) : jsGet l k = none := by
  induction l with
  | nil => rfl
  | cons p rest ih =>
    simp only [List.map_cons, List.mem_cons] at h
    push_neg at h
    simp only [jsGet]
    rw [if_neg (fun he => h.1 he.symm)]
    exact ih h.2

theorem jsSet_forall_keys {β : Type} {P : String → Prop} (l : List (String × β))
    (k : String) (v : β) (hl : ∀ e ∈ l, P e.1) (hk : P k) :
    ∀ e ∈ jsSet l k v, P e.1 := by
  induction l with
  | nil =>
    intro e he
    simp only [jsSet, List.mem_singleton] at he
    subst he
    exact hk
  | cons p rest ih =>
    intro e he
    by_cases h0 : p.1 = k
    · simp only [jsSet] at he
      rw [if_pos h0] at he
      rcases List.mem_cons.mp he with h1 | h1
      · subst h1
        exact hl p (List.mem_cons_self p rest)
      · exact hl e (List.mem_cons_of_mem p h1)
    · simp only [jsSet] at he
      rw [if_neg h0] at he
      rcases List.mem_cons.mp he with h1 | h1
      · subst h1
        exact hl p (List.mem_cons_self p rest)
      · exact ih (fun x hx => hl x (List.mem_cons_of_mem p hx)) e h1

/-! ## Injectivity of bound-parameter names -/

theorem decVal_foldl (a : Nat) (l : List Char) :
    l.foldl (fun x c => x * 10 + (c.toNat - 48)) a = a * 10 ^ l.length + decVal l := by
  induction l generalizing a with
  | nil => simp [decVal]
  | cons c t ih =>
    show List.foldl _ (a * 10 + (c.toNat - 48)) t = _
    rw [ih]
    have hc : decVal (c :: t) = (c.toNat - 48) * 10 ^ t.length + decVal t := by
      show List.foldl _ (0 * 10 + (c.toNat - 48)) t = _
      rw [ih]
      ring_nf
    rw [hc]
    simp [List.length_cons, pow_succ]
    ring

theorem decCharsAux_spec : ∀ (fuel n : Nat) (acc : List Char), n ≤ fuel →
    decVal (decCharsAux fuel n acc) = n * 10 ^ acc.length + decVal acc
  | 0, n, acc => by
    intro hn
    interval_cases n
    simp [decCharsAux]
  | fuel + 1, 0, acc => by
    intro _
    simp [decCharsAux]
  | fuel + 1, n + 1, acc => by
    intro hn
    show decVal (decCharsAux fuel ((n + 1) / 10) (Nat.digitChar ((n + 1) % 10) :: acc)) = _
    have hdiv : (n + 1) / 10 ≤ fuel := by
      have := Nat.div_lt_self (Nat.succ_pos n) (by norm_num : 1 < 10)
      omega
    rw [decCharsAux_spec fuel ((n + 1) / 10) _ hdiv]
    have hmod : (n + 1) % 10 < 10 := Nat.mod_lt _ (by norm_num)
    have hdigit : (Nat.digitChar ((n + 1) % 10)).toNat = 48 + (n + 1) % 10 := by
      set m := (n + 1) % 10 with hm
      clear_value m
      interval_cases m <;> rfl
    have hdecval : decVal (Nat.digitChar ((n + 1) % 10) :: acc) =
        ((n + 1) % 10) * 10 ^ acc.length + decVal acc := by
      show List.foldl _ (0 * 10 + ((Nat.digitChar ((n + 1) % 10)).toNat - 48)) acc = _
      rw [decVal_foldl, hdigit]
      simp
    rw [hdecval]
    simp only [List.length_cons, pow_succ]
    have := Nat.div_add_mod (n + 1) 10
    nlinarith [pow_pos (by norm_num : (0:Nat) < 10) acc.length]

theorem decVal_natToStr (n : Nat) : decVal (natToStr n).data = n := by
  unfold natToStr
  split
  · subst n
    decide
  · show decVal (decCharsAux n n []) = n
    rw [decCharsAux_spec n n [] (le_refl n)]
    simp [decVal]

theorem natToStr_injective : Function.Injective natToStr := by
  intro a b h
  have ha := decVal_natToStr a
  rw [h, decVal_natToStr] at ha
  exact ha.symm

theorem paramName_injective : Function.Injective paramName := by
  intro a b h
  unfold paramName at h
  have hd : ("param" ++ natToStr a).data = ("param" ++ natToStr b).data := by rw [h]
  rw [String.data_append, String.data_append] at hd
  have h2 : (natToStr a).data = (natToStr b).data := by simpa using hd
  have ha := decVal_natToStr a
  rw [h2, decVal_natToStr] at ha
  exact ha.symm

/-! ## Theorems for the claims -/

/-- C5: parseValue maps the value syntax as specified: `!red` is one negated
equality comparison, `red|blue` an OR clause of two comparisons, `~ab` fails
with an AttributeError (token shorter than 4), `~abcd efgh` is an AND clause
of two text-contains comparisons, the literal `null` becomes an actual null
value (a lone sub-value being returned unwrapped in each of these cases,
several being wrapped in an OR clause as in the second), and an array input
fails with an AttributeError.  `decode` is the external `decodeURIComponent`,
assumed (as JS guarantees) to act as the identity on these escape-free
sub-values. -/
theorem claim_c5_parseValue_syntax (decode : String → String) (attr : String)
    (h1 : decode ("!red") = "!red") (h2 : decode ("red") = "red")
    (h3 : decode ("blue") = "blue") (h4 : decode ("~ab") = "~ab")
    (h5 : decode ("~abcd efgh") = "~abcd efgh") (h6 : decode ("null") = "null") :
    parseValue decode attr (.str "!red") = .ok (.comp attr (some "red") none true) ∧
    parseValue decode attr (.str "red|blue") =
      .ok (.clause .orOp
        [.comp attr (some "red") none false, .comp attr (some "blue") none false]) ∧
    parseValue decode attr (.str "~ab") = .error .wordTooShort ∧
    parseValue decode attr (.str "~abcd efgh") =
      .ok (.clause .andOp
        [.comp attr (some "abcd") (some .containstext) false,
         .comp attr (some "efgh") (some .containstext) false]) ∧
    parseValue decode attr (.str "null") = .ok (.comp attr none none false) ∧
    (∀ l : List String, parseValue decode attr (.arr l) =
      .error (.duplicateParameter l.length)) := by
  refine ⟨?_, ?_, ?_, ?_, ?_, fun l => rfl⟩
  · simp only [parseValue]
    rw [show jsSplitChar (Char.ofNat 124) ("!red") = [("!red")] from rfl,
      parseSubValues_congr decode attr _ (by simpa using h1)]
    rfl
  · simp only [parseValue]
    rw [show jsSplitChar (Char.ofNat 124) ("red|blue") = [("red"), ("blue")] from rfl,
      parseSubValues_congr decode attr _ (by simpa using And.intro h2 h3)]
    rfl
  · simp only [parseValue]
    rw [show jsSplitChar (Char.ofNat 124) ("~ab") = [("~ab")] from rfl,
      parseSubValues_congr decode attr _ (by simpa using h4)]
    rfl
  · simp only [parseValue]
    rw [show jsSplitChar (Char.ofNat 124) ("~abcd efgh") = [("~abcd efgh")] from rfl,
      parseSubValues_congr decode attr _ (by simpa using h5)]
    rfl
  · simp only [parseValue]
    rw [show jsSplitChar (Char.ofNat 124) ("null") = [("null")] from rfl,
      parseSubValues_congr decode attr _ (by simpa using h6)]
    rfl

/-- Witness for C5 at the identity decode function. -/
theorem claim_c5_parseValue_syntax_witness :
    parseValue id "name" (.str "!red") = .ok (.comp ("name") (some "red") none true) ∧
    parseValue id "name" (.str "~ab") = .error .wordTooShort := by
  have h := claim_c5_parseValue_syntax id "name" rfl rfl rfl rfl rfl rfl
  exact ⟨h.1, h.2.2.1⟩

/-- C10: on any string input, parseValue never raises the
"Cannot define a comparison with no values" AttributeError: the split on the
pipe separator always yields at least one sub-value, and each loop iteration
either raises or contributes a comparison, so the empty-comparisons branch is
unreachable. -/
theorem claim_c10_noValues_unreachable {α : Type} (decode : String → String)
    (attr : α) (s : String) :
    parseValue decode attr (.str s) ≠ .error .noValues := by
  intro h
  simp only [parseValue] at h
  cases hc : parseSubValues decode attr (jsSplitChar (Char.ofNat 124) s) with
  | error e =>
    rw [hc] at h
    simp only [Except.error.injEq] at h
    exact parseSubValues_error decode attr _ e hc (h ▸ rfl)
  | ok comps =>
    rw [hc] at h
    cases comps with
    | nil =>
      have hlen := parseSubValues_ok_length decode attr _ [] hc
      have hne := jsSplitChar_ne_nil (Char.ofNat 124) s
      cases hsplit : jsSplitChar (Char.ofNat 124) s with
      | nil => exact hne hsplit
      | cons a rest => rw [hsplit] at hlen; simp at hlen
    | cons c rest =>
      cases rest with
      | nil => simp at h
      | cons d ds => simp at h

/-- Witness for C10 at a concrete decode function, attribute and string. -/
theorem claim_c10_noValues_unreachable_witness :
    parseValue id "name" (.str "") ≠ .error .noValues :=
  claim_c10_noValues_unreachable id "name" ""

/-- C2: with exactlyN set, zero returned records succeed with the empty list
exactly when exactlyN is 0 and fail NotFound otherwise; a nonzero record count
different from exactlyN fails with the ambiguous/too-many error; a matching
count is returned; without exactlyN whatever matched is returned. -/
theorem claim_c2_select_exactlyN {ρ : Type} :
    (∀ l : List ρ, select none l = .ok l) ∧
    (select (some 0) ([] : List ρ) = .ok []) ∧
    (∀ n : Nat, 0 < n → select (some n) ([] : List ρ) = .error .noRecordFound) ∧
    (∀ (n : Nat) (l : List ρ), l ≠ [] → l.length ≠ n →
      select (some n) l = .error .multipleRecordsFound) ∧
    (∀ (n : Nat) (l : List ρ), l.length = n → select (some n) l = .ok l) := by
  refine ⟨fun l => rfl, rfl, ?_, ?_, ?_⟩
  · intro n hn
    match n, hn with
    | _ + 1, _ => rfl
  · intro n l hne hlen
    simp only [select]
    rw [if_neg (by simpa using hne), if_pos (by omega)]
  · intro n l hlen
    subst hlen
    simp only [select]
    by_cases hnil : l = []
    · subst hnil; rfl
    · rw [if_neg (by simpa using hnil), if_neg (by omega)]

/-- Witness for C2 on concrete record lists. -/
theorem claim_c2_select_exactlyN_witness :
    select none [3] = .ok [3] ∧
    select (some 0) ([] : List Nat) = .ok [] ∧
    select (some 1) ([] : List Nat) = .error .noRecordFound ∧
    select (some 1) [4, 5] = .error .multipleRecordsFound ∧
    select (some 2) [4, 5] = .ok [4, 5] :=
  ⟨(claim_c2_select_exactlyN (ρ := Nat)).1 [3],
   (claim_c2_select_exactlyN (ρ := Nat)).2.1,
   (claim_c2_select_exactlyN (ρ := Nat)).2.2.1 1 (by decide),
   (claim_c2_select_exactlyN (ρ := Nat)).2.2.2.1 1 [4, 5] (by decide) (by decide),
   (claim_c2_select_exactlyN (ρ := Nat)).2.2.2.2 2 [4, 5] (by decide)⟩

theorem matchBits_eq_true (perms : List (String × Nat)) (k : String) (required : Nat) :
    ((match jsGet perms k with
      | some bits => required.land bits != 0
      | none => false) = true) ↔
    (∃ bits, jsGet perms k = some bits ∧ required.land bits ≠ 0) := by
  cases hg : jsGet perms k with
  | none => simp
  | some bits => simp

theorem checkAccess_some (perms : List (String × Nat)) (model : ModelRef) (required : Nat) :
    checkAccess ⟨some perms⟩ model required =
      ((match jsGet perms model.name with
        | some bits => required.land bits != 0
        | none => false) ||
       model.inherits.any (fun n =>
        match jsGet perms n with
        | some bits => required.land bits != 0
        | none => false)) := by
  show (if (match jsGet perms model.name with
            | some bits => required.land bits != 0
            | none => false) = true then true
        else model.inherits.any (fun n =>
          match jsGet perms n with
          | some bits => required.land bits != 0
          | none => false)) = _
  split <;> simp_all

/-- C6: checkAccess is true exactly when the user has a permission table and
either the bitmask stored under the model's own name, or the bitmask stored
under some name of the model's pre-flattened inherited-model list, has a
non-empty bitwise intersection with the required bits; a user without a
permission table is always denied. -/
theorem claim_c6_checkAccess :
    (∀ (user : DbUser) (model : ModelRef) (required : Nat),
      checkAccess user model required = true ↔
        ∃ perms, user.permissions = some perms ∧
          ((∃ bits, jsGet perms model.name = some bits ∧ required.land bits ≠ 0) ∨
           (∃ n ∈ model.inherits, ∃ bits, jsGet perms n = some bits ∧
              required.land bits ≠ 0))) ∧
    (∀ (model : ModelRef) (required : Nat),
      checkAccess ⟨none⟩ model required = false) := by
  constructor
  · intro user model required
    obtain ⟨perms0⟩ := user
    cases perms0 with
    | none => simp [checkAccess]
    | some perms =>
      rw [checkAccess_some]
      simp only [Bool.or_eq_true, matchBits_eq_true, List.any_eq_true]
      constructor
      · intro h
        exact ⟨perms, rfl, h⟩
      · rintro ⟨perms', hp, h⟩
        have hpp : perms' = perms := by
          injection hp with hp
          exact hp.symm
        subst hpp
        exact h
  · intro model required
    rfl

/-- Witness for C6 at a concrete user and model. -/
theorem claim_c6_checkAccess_witness :
    checkAccess ⟨some [("V", 12)]⟩ ⟨"E", ["V"]⟩ 4 = true ↔
      ∃ perms, (some [("V", 12)] : Option (List (String × Nat))) = some perms ∧
        ((∃ bits, jsGet perms "E" = some bits ∧ Nat.land 4 bits ≠ 0) ∨
         (∃ n ∈ ["V"], ∃ bits, jsGet perms n = some bits ∧ Nat.land 4 bits ≠ 0)) :=
  claim_c6_checkAccess.1 ⟨some [("V", 12)]⟩ ⟨"E", ["V"]⟩ 4


/-- C1: when exactly one live record matches the compiled where-predicate,
update succeeds and the resulting store contains (a) one new record — the
snapshot — whose identity is the fresh store-assigned one, whose attributes
are a full copy of the original's formatted attributes, whose deletion
timestamp is the transaction time, whose closer is the acting user, whose
creator is the original record's creator and whose history pointer is the
original's prior history entry (when one exists; absent otherwise); (b) the
live record under its unchanged identity carrying the content fields and a
history pointer to the new snapshot; and (c) every record with a different
identity unchanged. -/
theorem claim_c1_update_snapshot (db : List DBRecord) (pred : DBRecord → Bool)
    (content : List (String × String)) (userRid now freshRid : Nat)
    (original : DBRecord)
    (hsel : db.filter (matchesLive pred) = [original])
    (hfresh : freshRid ∉ db.map DBRecord.rid) :
    ∃ db', update db pred content userRid now freshRid = .ok db' ∧
      db'.length = db.length + 1 ∧
      (∃ snap ∈ db', snap.rid = freshRid ∧ snap.deletedAt = some now ∧
        snap.deletedBy = some userRid ∧ snap.createdBy = original.createdBy ∧
        snap.createdAt = original.createdAt ∧ snap.attrs = original.attrs ∧
        snap.history = original.history) ∧
      (∃ live ∈ db', live.rid = original.rid ∧ live.history = some freshRid ∧
        live.attrs = setAttrs original.attrs content ∧
        live.createdAt = original.createdAt ∧ live.createdBy = original.createdBy ∧
        live.deletedAt = none) ∧
      (∀ r ∈ db, r.rid ≠ original.rid → r ∈ db') := by
  have horig_mem : original ∈ db := by
    have : original ∈ db.filter (matchesLive pred) := by
      rw [hsel]
      exact List.mem_singleton.mpr rfl
    exact List.mem_of_mem_filter this
  have horig_live : original.deletedAt = none := by
    have : original ∈ db.filter (matchesLive pred) := by
      rw [hsel]
      exact List.mem_singleton.mpr rfl
    have hml := List.of_mem_filter this
    unfold matchesLive at hml
    have := (Bool.and_eq_true _ _).mp hml
    exact beq_iff_eq.mp this.2
  have hfne : freshRid ≠ original.rid := by
    intro heq
    exact hfresh (heq ▸ List.mem_map_of_mem DBRecord.rid horig_mem)
  have hcopyhist :
      (match original.history with
       | some h => some h
       | none => (none : Option Nat)) = original.history := by
    cases original.history <;> rfl
  refine ⟨_, by unfold update; rw [hsel], ?_, ?_, ?_, ?_⟩
  · simp
  · refine ⟨_, List.mem_map_of_mem _ (List.mem_append_right db (List.mem_singleton.mpr rfl)), ?_⟩
    rw [if_neg hfne]
    exact ⟨rfl, rfl, rfl, rfl, rfl, rfl, hcopyhist⟩
  · refine ⟨_, List.mem_map_of_mem _ (List.mem_append_left [_] horig_mem), ?_⟩
    rw [if_pos rfl]
    exact ⟨rfl, rfl, rfl, rfl, rfl, horig_live⟩
  · intro r hr hrne
    have : (if r.rid = original.rid then
        { r with attrs := setAttrs r.attrs content, history := some freshRid }
      else r) = r := if_neg hrne
    rw [← this]
    exact List.mem_map_of_mem _ (List.mem_append_left [_] hr)

/-- Witness for C1 on a one-record store. -/
theorem claim_c1_update_snapshot_witness :
    ∃ db', update [⟨1, 10, 7, none, none, none, [("name", "old")]⟩]
        (fun r => r.rid == 1) [("name", "new")] 9 99 2 = .ok db' ∧
      db'.length = 2 ∧
      (∃ snap ∈ db', snap.rid = 2 ∧ snap.deletedAt = some 99 ∧
        snap.deletedBy = some 9 ∧ snap.createdBy = 7 ∧
        snap.createdAt = 10 ∧ snap.attrs = [("name", "old")] ∧
        snap.history = none) ∧
      (∃ live ∈ db', live.rid = 1 ∧ live.history = some 2 ∧
        live.attrs = setAttrs [("name", "old")] [("name", "new")] ∧
        live.createdAt = 10 ∧ live.createdBy = 7 ∧
        live.deletedAt = none) ∧
      (∀ r ∈ [(⟨1, 10, 7, none, none, none, [("name", "old")]⟩ : DBRecord)],
        r.rid ≠ 1 → r ∈ db') :=
  claim_c1_update_snapshot [⟨1, 10, 7, none, none, none, [("name", "old")]⟩]
    (fun r => r.rid == 1) [("name", "new")] 9 99 2
    ⟨1, 10, 7, none, none, none, [("name", "old")]⟩ (by decide) (by decide)

/-- C7: when exactly one live record matches the predicate, remove succeeds,
the store keeps the same number of records with no new identity introduced (no
snapshot is created), the target record gets exactly the deletion timestamp
and closer set while its identity, creation fields, history pointer and
attributes are unchanged, and every other record is untouched. -/
theorem claim_c7_remove_no_snapshot (db : List DBRecord) (pred : DBRecord → Bool)
    (userRid now : Nat) (original : DBRecord)
    (hsel : db.filter (matchesLive pred) = [original]) :
    ∃ db', remove db pred userRid now = .ok db' ∧
      db'.length = db.length ∧
      (∀ r' ∈ db', r'.rid ∈ db.map DBRecord.rid) ∧
      (∃ r' ∈ db', r'.rid = original.rid ∧ r'.deletedAt = some now ∧
        r'.deletedBy = some userRid ∧ r'.createdAt = original.createdAt ∧
        r'.createdBy = original.createdBy ∧ r'.history = original.history ∧
        r'.attrs = original.attrs) ∧
      (∀ r ∈ db, r.rid ≠ original.rid → r ∈ db') := by
  have horig_mem : original ∈ db := by
    have : original ∈ db.filter (matchesLive pred) := by
      rw [hsel]
      exact List.mem_singleton.mpr rfl
    exact List.mem_of_mem_filter this
  refine ⟨_, by unfold remove; rw [hsel], by simp, ?_, ?_, ?_⟩
  · intro r' hr'
    obtain ⟨r, hr, hrr⟩ := List.mem_map.mp hr'
    have : r'.rid = r.rid := by
      subst hrr
      split <;> rfl
    rw [this]
    exact List.mem_map_of_mem _ hr
  · refine ⟨_, List.mem_map_of_mem _ horig_mem, ?_⟩
    rw [if_pos rfl]
    exact ⟨rfl, rfl, rfl, rfl, rfl, rfl, rfl⟩
  · intro r hr hrne
    have : (if r.rid = original.rid then
        { r with deletedAt := some now, deletedBy := some userRid }
      else r) = r := if_neg hrne
    rw [← this]
    exact List.mem_map_of_mem _ hr

/-- Witness for C7 on a two-record store. -/
theorem claim_c7_remove_no_snapshot_witness :
    ∃ db', remove [⟨1, 10, 7, none, none, some 5, [("name", "x")]⟩,
                   ⟨3, 11, 7, none, none, none, []⟩]
        (fun r => r.rid == 1) 9 99 = .ok db' ∧
      db'.length = 2 ∧
      (∀ r' ∈ db', r'.rid ∈ ([⟨1, 10, 7, none, none, some 5, [("name", "x")]⟩,
          ⟨3, 11, 7, none, none, none, []⟩] : List DBRecord).map DBRecord.rid) ∧
      (∃ r' ∈ db', r'.rid = 1 ∧ r'.deletedAt = some 99 ∧
        r'.deletedBy = some 9 ∧ r'.createdAt = 10 ∧
        r'.createdBy = 7 ∧ r'.history = some 5 ∧
        r'.attrs = [("name", "x")]) ∧
      (∀ r ∈ ([⟨1, 10, 7, none, none, some 5, [("name", "x")]⟩,
          ⟨3, 11, 7, none, none, none, []⟩] : List DBRecord),
        r.rid ≠ 1 → r ∈ db') :=
  claim_c7_remove_no_snapshot _ (fun r => r.rid == 1) 9 99
    ⟨1, 10, 7, none, none, some 5, [("name", "x")]⟩ (by decide)

/-- C8 counterexample: with `fuzzyMatch` set to the value 0 (a non-negative
bound, falsy in JS) and no ancestors or descendants, Follow.parse returns no
hop sequence at all rather than the single fuzzy-hop sequence the claim
promises. -/
theorem claim_c8_counterexample :
    followParse none none (some 0) true = [] ∧
    ([] : List (List FollowF)) ≠ [[⟨FUZZY_CLASSES, .both, some 0, true⟩]] := by
  exact ⟨rfl, by decide⟩

/-- C8 (amended: `fuzzyMatch` must be set to a nonzero bound, since JS
truthiness ignores a zero value): with a nonzero fuzzyMatch and no
ancestor/descendant sequences, parse returns exactly one sequence holding the
bidirectional fuzzy hop bounded by that depth; with ancestor and/or descendant
sequences present, the fuzzy hop is spliced both before and after each
sequence. -/
theorem claim_c8_follow_fuzzy (n : Nat) (hn : n ≠ 0) (a d : List String) (ao : Bool) :
    followParse none none (some n) ao = [[⟨FUZZY_CLASSES, .both, some n, ao⟩]] ∧
    followParse (some a) none (some n) ao =
      [[⟨FUZZY_CLASSES, .both, some n, ao⟩, ⟨a, .inDir, none, ao⟩,
        ⟨FUZZY_CLASSES, .both, some n, ao⟩]] ∧
    followParse none (some d) (some n) ao =
      [[⟨FUZZY_CLASSES, .both, some n, ao⟩, ⟨d, .outDir, none, ao⟩,
        ⟨FUZZY_CLASSES, .both, some n, ao⟩]] ∧
    followParse (some a) (some d) (some n) ao =
      [[⟨FUZZY_CLASSES, .both, some n, ao⟩, ⟨a, .inDir, none, ao⟩,
        ⟨FUZZY_CLASSES, .both, some n, ao⟩],
       [⟨FUZZY_CLASSES, .both, some n, ao⟩, ⟨d, .outDir, none, ao⟩,
        ⟨FUZZY_CLASSES, .both, some n, ao⟩]] := by
  refine ⟨?_, ?_, ?_, ?_⟩ <;>
    · simp only [followParse]
      rw [if_neg hn]
      rfl

/-- Witness for C8 at depth 2. -/
theorem claim_c8_follow_fuzzy_witness :
    followParse none none (some 2) true = [[⟨FUZZY_CLASSES, .both, some 2, true⟩]] ∧
    followParse (some ["P"]) (some ["Q"]) (some 2) true =
      [[⟨FUZZY_CLASSES, .both, some 2, true⟩, ⟨["P"], .inDir, none, true⟩,
        ⟨FUZZY_CLASSES, .both, some 2, true⟩],
       [⟨FUZZY_CLASSES, .both, some 2, true⟩, ⟨["Q"], .outDir, none, true⟩,
        ⟨FUZZY_CLASSES, .both, some 2, true⟩]] :=
  ⟨(claim_c8_follow_fuzzy 2 (by decide) ["P"] ["Q"] true).1,
   (claim_c8_follow_fuzzy 2 (by decide) ["P"] ["Q"] true).2.2.2⟩


/-- C9 counterexample: a Clause with exactly one child that is itself a
Clause with two grandchildren serializes with surrounding grouping
parentheses, so its text differs from the child serialized alone (the
parameter maps do agree). -/
theorem claim_c9_counterexample :
    ccToStr 9 (.cls .andOp [.cls .orOp
        [.cmp (some "a") .eq false, .cmp (some "b") .eq false]]) "x" 0 false =
      .ok ("(x = :param0 OR x = :param1)",
        [("param0", some "a"), ("param1", some "b")]) ∧
    ccToStr 9 (.cls .orOp
        [.cmp (some "a") .eq false, .cmp (some "b") .eq false]) "x" 0 false =
      .ok ("x = :param0 OR x = :param1",
        [("param0", some "a"), ("param1", some "b")]) ∧
    ("(x = :param0 OR x = :param1)" : String) ≠ "x = :param0 OR x = :param1" :=
  ⟨rfl, rfl, by decide⟩

theorem ccComponents_single (fuel : Nat) (child : CC) (name : String) (idx : Nat)
    (lb : Bool) (q : String) (ps : List (String × Option String))
    (h : ccToStr fuel child name idx lb = .ok (q, ps)) :
    ccComponents (fuel + 1) [child] name idx lb =
      .ok ([(if ccIsMultiClause child then "(" ++ q ++ ")" else q)], ps) := by
  cases child with
  | cmp v op neg =>
    have h2 : Except.ok (cmpToStr v op neg name idx lb) =
        (Except.ok (q, ps) : Except SErr (String × List (String × Option String))) := h
    injection h2 with h2
    simp only [ccComponents]
    rw [h2]
    simp [ccIsMultiClause]
  | cls ty2 ch2 =>
    simp only [ccToStr] at h
    cases hcc : ccComponents fuel ch2 name idx lb with
    | error e =>
      rw [hcc] at h
      simp at h
    | ok r =>
      obtain ⟨qs2, ps2⟩ := r
      rw [hcc] at h
      simp only at h
      injection h with h
      have hq := congrArg Prod.fst h
      have hp := congrArg Prod.snd h
      simp only at hq hp
      simp only [ccComponents]
      rw [hcc]
      simp only [List.append_nil]
      rw [hq, hp]

/-- C9 (amended: the parameter map is always exactly the child's own, and the
query text is the child's own serialization except that a single child that is
itself a Clause with more than one grandchild is additionally wrapped in one
pair of grouping parentheses). -/
theorem claim_c9_single_child (fuel : Nat) (ty : ClauseOp) (child : CC)
    (name : String) (paramIndex : Nat) (listableType : Bool)
    (q : String) (ps : List (String × Option String))
    (h : ccToStr fuel child name paramIndex listableType = .ok (q, ps)) :
    ccToStr (fuel + 1) (.cls ty [child]) name paramIndex listableType =
      .ok ((if ccIsMultiClause child then "(" ++ q ++ ")" else q), ps) := by
  have hs := ccComponents_single fuel child name paramIndex listableType q ps h
  simp only [ccToStr]
  rw [hs]
  rfl

/-- Witness for C9 with a Comparison child. -/
theorem claim_c9_single_child_witness :
    ccToStr 3 (.cls .andOp [.cmp (some "a") .eq false]) "x" 0 false =
      .ok ("x = :param0", [("param0", some "a")]) := by
  have h := claim_c9_single_child 2 .andOp (.cmp (some "a") .eq false) "x" 0 false
    ("x = :param0") [("param0", some "a")] rfl
  simpa [ccIsMultiClause] using h


/-! ## C3: uniqueness of bound-parameter names and deterministic key order -/

theorem block_append (idx k1 k2 : Nat) :
    (List.range' idx k1).map paramName ++ (List.range' (idx + k1) k2).map paramName =
      (List.range' idx (k1 + k2)).map paramName := by
  rw [← List.map_append, List.range'_append_1, Nat.add_comm k2 k1]

theorem cmpToStr_params (value : Option String) (op : COp) (negate : Bool)
    (name : String) (idx : Nat) (lb : Bool) :
    ((cmpToStr value op negate name idx lb).2).map Prod.fst =
      (List.range' idx ((cmpToStr value op negate name idx lb).2).length).map paramName := by
  simp only [cmpToStr]
  repeat' split
  all_goals rfl

theorem ccComponents_params : ∀ (fuel : Nat) (l : List CC) (name : String) (idx : Nat)
    (lb : Bool) (qs : List String) (ps : List (String × Option String)),
    ccComponents fuel l name idx lb = .ok (qs, ps) →
    ps.map Prod.fst = (List.range' idx ps.length).map paramName := by
  intro fuel
  induction fuel with
  | zero =>
    intro l name idx lb qs ps h
    cases l with
    | nil =>
      have h2 : (Except.ok (([] : List String), ([] : List (String × Option String))) :
          Except SErr (List String × List (String × Option String))) = .ok (qs, ps) := h
      injection h2 with h2
      have hp := congrArg Prod.snd h2
      simp only at hp
      rw [← hp]
      rfl
    | cons c rest => exact absurd h (by simp [ccComponents])
  | succ fuel ih =>
    intro l name idx lb qs ps h
    cases l with
    | nil =>
      have h2 : (Except.ok (([] : List String), ([] : List (String × Option String))) :
          Except SErr (List String × List (String × Option String))) = .ok (qs, ps) := h
      injection h2 with h2
      have hp := congrArg Prod.snd h2
      simp only at hp
      rw [← hp]
      rfl
    | cons c rest =>
      simp only [ccComponents] at h
      cases c with
      | cmp v op neg =>
        simp only at h
        cases hrest : ccComponents fuel rest name
            (idx + ((cmpToStr v op neg name idx lb).2).length) lb with
        | error e =>
          rw [hrest] at h
          simp at h
        | ok r2 =>
          obtain ⟨qs2, ps2⟩ := r2
          rw [hrest] at h
          simp only at h
          injection h with h
          have hp := congrArg Prod.snd h
          simp only at hp
          rw [← hp, List.map_append, List.length_append]
          rw [cmpToStr_params v op neg name idx lb, ih rest name _ lb qs2 ps2 hrest]
          exact block_append idx _ _
      | cls ty ch =>
        simp only at h
        cases hch : ccComponents fuel ch name idx lb with
        | error e =>
          rw [hch] at h
          simp at h
        | ok r1 =>
          obtain ⟨qs1, ps1⟩ := r1
          rw [hch] at h
          simp only at h
          cases hrest : ccComponents fuel rest name (idx + ps1.length) lb with
          | error e =>
            rw [hrest] at h
            simp at h
          | ok r2 =>
            obtain ⟨qs2, ps2⟩ := r2
            rw [hrest] at h
            simp only at h
            injection h with h
            have hp := congrArg Prod.snd h
            simp only at hp
            rw [← hp, List.map_append, List.length_append]
            rw [ih ch name idx lb qs1 ps1 hch, ih rest name _ lb qs2 ps2 hrest]
            exact block_append idx _ _

theorem ccToStr_params (fuel : Nat) (c : CC) (name : String) (idx : Nat) (lb : Bool)
    (q : String) (ps : List (String × Option String))
    (h : ccToStr fuel c name idx lb = .ok (q, ps)) :
    ps.map Prod.fst = (List.range' idx ps.length).map paramName := by
  cases c with
  | cmp v op neg =>
    have h2 : (Except.ok (cmpToStr v op neg name idx lb) :
        Except SErr (String × List (String × Option String))) = .ok (q, ps) := h
    injection h2 with h2
    have hp := congrArg Prod.snd h2
    simp only at hp
    rw [← hp]
    exact cmpToStr_params v op neg name idx lb
  | cls ty ch =>
    simp only [ccToStr] at h
    cases hch : ccComponents fuel ch name idx lb with
    | error e =>
      rw [hch] at h
      simp at h
    | ok r =>
      obtain ⟨qs1, ps1⟩ := r
      rw [hch] at h
      simp only at h
      injection h with h
      have hp := congrArg Prod.snd h
      simp only at hp
      rw [← hp]
      exact ccComponents_params fuel ch name idx lb qs1 ps1 hch

theorem ridParams_names : ∀ (ps ps' : List (String × Option String)),
    ridParams ps = .ok ps' →
    ps'.map Prod.fst = ps.map Prod.fst ∧ ps'.length = ps.length
  | [], ps' => by
    intro h
    injection h with h
    subst h
    exact ⟨rfl, rfl⟩
  | (pname, v) :: rest, ps' => by
    simp only [ridParams]
    cases v with
    | none =>
      intro h
      cases hr : ridParams rest with
      | error e =>
        rw [hr] at h
        simp at h
      | ok r =>
        rw [hr] at h
        injection h with h
        subst h
        obtain ⟨h1, h2⟩ := ridParams_names rest r hr
        simp [h1, h2]
    | some sv =>
      intro h
      simp only at h
      split at h
      · cases hr : ridParams rest with
        | error e =>
          rw [hr] at h
          simp at h
        | ok r =>
          rw [hr] at h
          injection h with h
          subst h
          obtain ⟨h1, h2⟩ := ridParams_names rest r hr
          simp [h1, h2]
      · simp at h

theorem conditionClause_params (fuel : Nat) (props : List (String × String))
    (name : String) (c : CC) (idx : Nat) (q : String)
    (ps : List (String × Option String))
    (h : conditionClause fuel props name c idx = .ok (q, ps)) :
    ps.map Prod.fst = (List.range' idx ps.length).map paramName := by
  simp only [conditionClause] at h
  cases hg : jsGet props name with
  | none =>
    rw [hg] at h
    simp at h
  | some ptype =>
    rw [hg] at h
    simp only at h
    split at h
    · simp at h
    · cases hcs : ccToStr fuel c name idx (isListType ptype) with
      | error e =>
        rw [hcs] at h
        simp at h
      | ok r =>
        obtain ⟨q0, ps0⟩ := r
        rw [hcs] at h
        simp only at h
        split at h
        · cases hr : ridParams ps0 with
          | error e =>
            rw [hr] at h
            simp at h
          | ok ps1 =>
            rw [hr] at h
            injection h with h
            have hp := congrArg Prod.snd h
            simp only at hp
            obtain ⟨h1, h2⟩ := ridParams_names ps0 ps1 hr
            rw [← hp, h1, h2]
            exact ccToStr_params fuel c name idx (isListType ptype) q0 ps0 hcs
        · injection h with h
          have hp := congrArg Prod.snd h
          simp only at hp
          rw [← hp]
          exact ccToStr_params fuel c name idx (isListType ptype) q0 ps0 hcs

theorem condsToStr_params : ∀ (fuel : Nat) (props : List (String × String))
    (l : List (String × Cond)) (idx : Nat) (qs : List String)
    (ps : List (String × Option String)),
    condsToStr fuel props l idx = .ok (qs, ps) →
    ps.map Prod.fst = (List.range' idx ps.length).map paramName := by
  intro fuel
  induction fuel with
  | zero =>
    intro props l idx qs ps h
    cases l with
    | nil =>
      have h2 : (Except.ok (([] : List String), ([] : List (String × Option String))) :
          Except SErr (List String × List (String × Option String))) = .ok (qs, ps) := h
      injection h2 with h2
      have hp := congrArg Prod.snd h2
      simp only at hp
      rw [← hp]
      rfl
    | cons c rest => exact absurd h (by simp [condsToStr])
  | succ fuel ih =>
    intro props l idx qs ps h
    cases l with
    | nil =>
      have h2 : (Except.ok (([] : List String), ([] : List (String × Option String))) :
          Except SErr (List String × List (String × Option String))) = .ok (qs, ps) := h
      injection h2 with h2
      have hp := congrArg Prod.snd h2
      simp only at hp
      rw [← hp]
      rfl
    | cons hd rest =>
      obtain ⟨attr, cond⟩ := hd
      simp only [condsToStr] at h
      cases cond with
      | sub q2 =>
        cases q2 with
        | mk mn props2 conds2 follow2 skip2 retProps2 =>
          simp only at h
          cases hsub : condsToStr fuel props2 (sortConds conds2) idx with
          | error e =>
            rw [hsub] at h
            simp at h
          | ok r1 =>
            obtain ⟨cs1, ps1⟩ := r1
            rw [hsub] at h
            simp only at h
            cases hrest : condsToStr fuel props rest (idx + ps1.length) with
            | error e =>
              rw [hrest] at h
              simp at h
            | ok r2 =>
              obtain ⟨qs2, ps2⟩ := r2
              rw [hrest] at h
              simp only at h
              injection h with h
              have hp := congrArg Prod.snd h
              simp only at hp
              rw [← hp, List.map_append, List.length_append]
              rw [ih props2 (sortConds conds2) idx cs1 ps1 hsub,
                ih props rest _ qs2 ps2 hrest]
              exact block_append idx _ _
      | cc c =>
        simp only at h
        cases hcl : conditionClause fuel props attr c idx with
        | error e =>
          rw [hcl] at h
          simp at h
        | ok r1 =>
          obtain ⟨q0, ps1⟩ := r1
          rw [hcl] at h
          simp only at h
          cases hrest : condsToStr fuel props rest (idx + ps1.length) with
          | error e =>
            rw [hrest] at h
            simp at h
          | ok r2 =>
            obtain ⟨qs2, ps2⟩ := r2
            rw [hrest] at h
            simp only at h
            injection h with h
            have hp := congrArg Prod.snd h
            simp only at hp
            rw [← hp, List.map_append, List.length_append]
            rw [conditionClause_params fuel props attr c idx q0 ps1 hcl,
              ih props rest _ qs2 ps2 hrest]
            exact block_append idx _ _

instance : IsTotal (String × Cond) (fun a b => a.1 ≤ b.1) :=
  ⟨fun a b => le_total a.1 b.1⟩

instance : IsTrans (String × Cond) (fun a b => a.1 ≤ b.1) :=
  ⟨fun _ _ _ h1 h2 => le_trans h1 h2⟩

theorem sorted_nodupkeys_perm_eq :
    ∀ (l₁ l₂ : List (String × Cond)), List.Perm l₁ l₂ →
      ((l₁.map Prod.fst).Nodup) →
      List.Sorted (fun a b => a.1 ≤ b.1) l₁ →
      List.Sorted (fun a b => a.1 ≤ b.1) l₂ → l₁ = l₂
  | [], l₂ => by
    intro hperm _ _ _
    exact (hperm.symm.eq_nil).symm
  | a :: t₁, l₂ => by
    intro hperm hnodup hs1 hs2
    cases l₂ with
    | nil =>
      have := hperm.length_eq
      simp at this
    | cons b t₂ =>
      have hn1 : a.1 ∉ List.map Prod.fst t₁ ∧ (List.map Prod.fst t₁).Nodup := by
        have := hnodup
        simp only [List.map_cons, List.nodup_cons] at this
        exact this
      have hab : a = b := by
        have ha2 : a ∈ b :: t₂ := hperm.mem_iff.mp (List.mem_cons_self a t₁)
        have hb1 : b ∈ a :: t₁ := hperm.mem_iff.mpr (List.mem_cons_self b t₂)
        rcases List.mem_cons.mp hb1 with hba | hbt
        · exact hba.symm
        · rcases List.mem_cons.mp ha2 with hab2 | hat
          · exact hab2
          · have h1 : a.1 ≤ b.1 := (List.sorted_cons.mp hs1).1 b hbt
            have h2 : b.1 ≤ a.1 := (List.sorted_cons.mp hs2).1 a hat
            have hfst : a.1 = b.1 := le_antisymm h1 h2
            have hmem : a.1 ∈ List.map Prod.fst t₁ := by
              rw [hfst]
              exact List.mem_map_of_mem Prod.fst hbt
            exact absurd hmem hn1.1
      subst hab
      have hperm' := hperm.cons_inv
      have htail := sorted_nodupkeys_perm_eq t₁ t₂ hperm' hn1.2
        (List.sorted_cons.mp hs1).2 (List.sorted_cons.mp hs2).2
      rw [htail]

theorem sortConds_congr (c₁ c₂ : List (String × Cond)) (hperm : List.Perm c₁ c₂)
    (hnodup : (c₁.map Prod.fst).Nodup) : sortConds c₁ = sortConds c₂ := by
  apply sorted_nodupkeys_perm_eq
  · exact (List.perm_insertionSort _ c₁).trans
      (hperm.trans (List.perm_insertionSort _ c₂).symm)
  · have hmap := (List.perm_insertionSort
      (fun a b : String × Cond => a.1 ≤ b.1) c₁).map Prod.fst
    exact hmap.nodup_iff.mpr hnodup
  · exact List.sorted_insertionSort _ c₁
  · exact List.sorted_insertionSort _ c₂

/-- C3: (1) every successful serialization of a SelectionQuery binds
pairwise-distinct parameter names across the whole compiled statement,
subqueries and multi-comparison clauses included (the names form the
contiguous block param<start>..param<start+k-1>); and (2) condition entries
are emitted in sorted key order, so two SelectionQuery values whose condition
maps hold the same entries (in any order, under the JS-object guarantee of
distinct keys) serialize to identical statement text and parameters. -/
theorem claim_c3_serialization :
    (∀ (fuel : Nat) (q : SelQ) (start : Nat) (stmt : String)
       (params : List (String × Option String)),
      sqToStr fuel q start = .ok (stmt, params) →
      (params.map Prod.fst).Nodup) ∧
    (∀ (fuel : Nat) (mn : String) (props : List (String × String))
       (conds₁ conds₂ : List (String × Cond)) (follow : List (List FollowF))
       (skip : Option Nat) (rp : Option (List String)) (start : Nat),
      List.Perm conds₁ conds₂ → ((conds₁.map Prod.fst).Nodup) →
      sqToStr fuel (.mk mn props conds₁ follow skip rp) start =
        sqToStr fuel (.mk mn props conds₂ follow skip rp) start) := by
  constructor
  · intro fuel q start stmt params h
    cases q with
    | mk mn props conds follow skip retProps =>
      simp only [sqToStr] at h
      cases hcs : condsToStr fuel props (sortConds conds) start with
      | error e =>
        rw [hcs] at h
        simp at h
      | ok r =>
        obtain ⟨cs, ps⟩ := r
        rw [hcs] at h
        simp only at h
        injection h with h
        have hp := congrArg Prod.snd h
        simp only at hp
        rw [← hp]
        rw [condsToStr_params fuel props (sortConds conds) start cs ps hcs]
        exact (List.nodup_range' start ps.length).map paramName_injective
  · intro fuel mn props conds₁ conds₂ follow skip rp start hperm hnodup
    simp only [sqToStr]
    rw [sortConds_congr conds₁ conds₂ hperm hnodup]

/-- Witness for C3: a concrete one-condition serialization has distinct
parameter names, and a two-condition query serializes identically to its
key-swapped permutation. -/
theorem claim_c3_serialization_witness :
    (([("param0", some "x")] : List (String × Option String)).map Prod.fst).Nodup ∧
    sqToStr 3 (SelQ.mk "T" [("a", "string"), ("b", "string")]
        [("a", .cc (.cmp (some "1") .eq false)), ("b", .cc (.cmp (some "2") .eq false))]
        [] none none) 0 =
      sqToStr 3 (SelQ.mk "T" [("a", "string"), ("b", "string")]
        [("b", .cc (.cmp (some "2") .eq false)), ("a", .cc (.cmp (some "1") .eq false))]
        [] none none) 0 :=
  ⟨claim_c3_serialization.1 3
      (SelQ.mk "Thing" [("name", "string")]
        [("name", .cc (.cmp (some "x") .eq false))] [] none none) 0
      ("SELECT * FROM Thing WHERE name = :param0") [("param0", some "x")] rfl,
   claim_c3_serialization.2 3 "T" [("a", "string"), ("b", "string")]
      [("a", .cc (.cmp (some "1") .eq false)), ("b", .cc (.cmp (some "2") .eq false))]
      [("b", .cc (.cmp (some "2") .eq false)), ("a", .cc (.cmp (some "1") .eq false))]
      [] none none 0
      (List.Perm.swap (("b", Cond.cc (CC.cmp (some "2") COp.eq false)) : String × Cond)
        (("a", Cond.cc (CC.cmp (some "1") COp.eq false)) : String × Cond) [])
      (by simp)⟩


/-! ## C4: the implicit deletedAt condition -/

theorem jsGet_cons_self {β : Type} (rest : List (String × β)) (k : String) (v : β) :
    jsGet ((k, v) :: rest) k = some v := by
  simp [jsGet]

theorem jsSet_keys_mem {β : Type} : ∀ (l : List (String × β)) (k : String) (v : β)
    (x : String), x ∈ (jsSet l k v).map Prod.fst → x ∈ l.map Prod.fst ∨ x = k
  | [], k, v, x => by
    intro hx
    simp only [jsSet, List.map_cons, List.map_nil, List.mem_singleton] at hx
    exact Or.inr hx
  | (k0, v0) :: rest, k, v, x => by
    intro hx
    by_cases h0 : k0 = k
    · simp only [jsSet, if_pos h0, List.map_cons, List.mem_cons] at hx
      rcases hx with hx | hx
      · exact Or.inl (by simp [hx])
      · exact Or.inl (by simp [hx])
    · simp only [jsSet, if_neg h0, List.map_cons, List.mem_cons] at hx
      rcases hx with hx | hx
      · exact Or.inl (by simp [hx])
      · rcases jsSet_keys_mem rest k v x hx with hr | hr
        · exact Or.inl (by simp [hr])
        · exact Or.inr hr

theorem jsSet_nodup_keys {β : Type} : ∀ (l : List (String × β)) (k : String) (v : β),
    (l.map Prod.fst).Nodup → ((jsSet l k v).map Prod.fst).Nodup
  | [], k, v => by
    intro _
    simp [jsSet]
  | (k0, v0) :: rest, k, v => by
    intro hnd
    have hnd2 : k0 ∉ rest.map Prod.fst ∧ (rest.map Prod.fst).Nodup := by
      have h2 := hnd
      simp only [List.map_cons, List.nodup_cons] at h2
      exact h2
    obtain ⟨hmem, htail⟩ := hnd2
    by_cases h0 : k0 = k
    · simp only [jsSet, if_pos h0, List.map_cons]
      exact List.nodup_cons.mpr ⟨hmem, htail⟩
    · simp only [jsSet, if_neg h0, List.map_cons]
      refine List.nodup_cons.mpr ⟨?_, jsSet_nodup_keys rest k v htail⟩
      intro hx
      rcases jsSet_keys_mem rest k v k0 hx with hr | hr
      · exact hmem hr
      · exact h0 hr

theorem dot_ne_deletedAt (a b : String) : a ++ "." ++ b ≠ "deletedAt" := by
  intro h
  have hd : (a ++ "." ++ b).data = "deletedAt".data := by rw [h]
  rw [String.data_append, String.data_append] at hd
  have hmem : (Char.ofNat 46) ∈ (a.data ++ ".".data) ++ b.data := by
    apply List.mem_append_left
    apply List.mem_append_right
    decide
  rw [hd] at hmem
  exact absurd hmem (by decide)

/-- C4 counterexample: with activeOnly defaulted to true, a caller-supplied
deletedAt condition (equality to the value 5) is overwritten by the implicit
deletedAt IS NULL comparison rather than kept. -/
theorem claim_c4_counterexample :
    (mkSelQ 3
        (ClassModel.mk "Thing" ["name", "deletedAt"]
          [("name", PropDefn.mk "string" none), ("deletedAt", PropDefn.mk "long" none)]
          [] false)
        [("deletedAt", .cc (.cmp (some "5") .eq false))] ⟨none, none⟩).map
      (fun q => match jsGet q.conditions ("deletedAt") with
        | some (.cc (.cmp v _ _)) => some v
        | _ => none) = .ok (some (none : Option String)) ∧
    (some (none : Option String)) ≠ some (some "5") :=
  ⟨rfl, by decide⟩


theorem condLoop_deletedAt (model : ClassModel)
    (hnolink : ∀ pd, jsGet model.properties ("deletedAt") = some pd →
      pd.linkedModel = none) :
    ∀ (iq : List (String × InVal)) (conds : List (String × Cond))
      (subqs : List (String × (ClassModel × List (String × InVal))))
      (out : List (String × Cond) ×
        List (String × (ClassModel × List (String × InVal)))),
      (iq.map Prod.fst).Nodup →
      condLoop model iq conds subqs = .ok out →
      ((jsGet iq ("deletedAt") = some (.raw none) →
        jsGet out.1 ("deletedAt") = some (Cond.cc (.cmp none .eq false))) ∧
       (jsGet iq ("deletedAt") = none →
        jsGet out.1 ("deletedAt") = jsGet conds ("deletedAt")) ∧
       ((∀ e ∈ subqs, e.1 ≠ "deletedAt") → ∀ e ∈ out.2, e.1 ≠ "deletedAt"))
  | [], conds, subqs, out => by
    intro _ h
    have h2 : (Except.ok ((conds, subqs) :
        List (String × Cond) ×
        List (String × (ClassModel × List (String × InVal)))) :
        Except SErr _) = .ok out := h
    injection h2 with h2
    subst h2
    refine ⟨?_, fun _ => rfl, fun hs => hs⟩
    intro hget
    simp [jsGet] at hget
  | (name, value) :: rest, conds, subqs, out => by
    intro hnd h
    have hnd2 : name ∉ rest.map Prod.fst ∧ (rest.map Prod.fst).Nodup := by
      have h2 := hnd
      simp only [List.map_cons, List.nodup_cons] at h2
      exact h2
    obtain ⟨hnmem, hndt⟩ := hnd2
    have ih := condLoop_deletedAt model hnolink rest
    simp only [condLoop] at h
    by_cases hsp : SPECIAL_QUERY_ARGS.contains name = true
    · rw [if_pos hsp] at h
      have hne : name ≠ ("deletedAt") := by
        intro he
        rw [he] at hsp
        exact absurd hsp (by decide)
      obtain ⟨ih1, ih2, ih3⟩ := ih conds subqs out hndt h
      refine ⟨?_, ?_, ih3⟩
      · intro hget
        rw [jsGet_cons_ne rest name _ value hne] at hget
        exact ih1 hget
      · intro hget
        rw [jsGet_cons_ne rest name _ value hne] at hget
        exact ih2 hget
    · rw [if_neg hsp] at h
      cases hparts : paramPrefixParts name with
      | mk pre suf =>
        rw [hparts] at h
        by_cases hpn : (!(model.propertyNames.contains pre) &&
            !((["@rid", "@class"] : List String).contains pre)) = true
        · rw [if_pos hpn] at h
          exact nomatch h
        · rw [if_neg hpn] at h
          by_cases hna : name = ("deletedAt")
          · subst hna
            have hps : pre = ("deletedAt") ∧ suf = (none : Option String) := by
              have h2 : (("deletedAt" : String), (none : Option String)) = (pre, suf) := by
                rw [← hparts]
                rfl
              injection h2 with e1 e2
              exact ⟨e1.symm, e2.symm⟩
            obtain ⟨hpre, hsuf⟩ := hps
            subst hpre
            subst hsuf
            cases value with
            | raw v =>
              have h2 : condLoop model rest
                  (jsSet conds ("deletedAt") (.cc (.cmp v .eq false))) subqs = .ok out := h
              obtain ⟨ih1, ih2, ih3⟩ := ih _ subqs out hndt h2
              refine ⟨?_, ?_, ih3⟩
              · intro hget
                rw [jsGet_cons_self rest ("deletedAt") (InVal.raw v)] at hget
                injection hget with hget
                injection hget with hget
                subst hget
                rw [ih2 (jsGet_eq_none rest _ hnmem)]
                exact jsGet_jsSet_self conds ("deletedAt") (.cc (.cmp none .eq false))
              · intro hget
                rw [jsGet_cons_self rest ("deletedAt") (InVal.raw v)] at hget
                exact absurd hget (by simp)
            | cc c =>
              have h2 : condLoop model rest
                  (jsSet conds ("deletedAt") (.cc c)) subqs = .ok out := h
              obtain ⟨ih1, ih2, ih3⟩ := ih _ subqs out hndt h2
              refine ⟨?_, ?_, ih3⟩
              · intro hget
                rw [jsGet_cons_self rest ("deletedAt") (InVal.cc c)] at hget
                exact absurd hget (by simp)
              · intro hget
                rw [jsGet_cons_self rest ("deletedAt") (InVal.cc c)] at hget
                exact absurd hget (by simp)
            | strList l => exact nomatch h
            | natv n => exact nomatch h
          · have hcons := jsGet_cons_ne rest name ("deletedAt") value hna
            have hdne : ("deletedAt" : String) ≠ name := fun he => hna he.symm
            cases suf with
            | none =>
              cases value with
              | raw v =>
                have h2 : condLoop model rest
                    (jsSet conds name (.cc (.cmp v .eq false))) subqs = .ok out := h
                obtain ⟨ih1, ih2, ih3⟩ := ih _ subqs out hndt h2
                refine ⟨?_, ?_, ih3⟩
                · intro hget
                  rw [hcons] at hget
                  exact ih1 hget
                · intro hget
                  rw [hcons] at hget
                  rw [ih2 hget]
                  exact jsGet_jsSet_ne conds name ("deletedAt") _ hdne
              | cc c =>
                have h2 : condLoop model rest
                    (jsSet conds name (.cc c)) subqs = .ok out := h
                obtain ⟨ih1, ih2, ih3⟩ := ih _ subqs out hndt h2
                refine ⟨?_, ?_, ih3⟩
                · intro hget
                  rw [hcons] at hget
                  exact ih1 hget
                · intro hget
                  rw [hcons] at hget
                  rw [ih2 hget]
                  exact jsGet_jsSet_ne conds name ("deletedAt") _ hdne
              | strList l => exact nomatch h
              | natv n => exact nomatch h
            | some sfx =>
              simp only at h
              cases hgp : jsGet model.properties pre with
              | none =>
                rw [hgp] at h
                exact nomatch h
              | some pd =>
                rw [hgp] at h
                simp only at h
                cases hlm : pd.linkedModel with
                | some lm =>
                  rw [hlm] at h
                  simp only at h
                  have hpre : pre ≠ ("deletedAt") := by
                    intro he
                    rw [he] at hgp
                    rw [hnolink pd hgp] at hlm
                    exact nomatch hlm
                  by_cases hsf : SPECIAL_QUERY_ARGS.contains sfx = true
                  · rw [if_pos hsf] at h
                    have h2 : condLoop model rest conds
                        (jsSet subqs pre (lm, jsSet
                          (match jsGet subqs pre with
                           | some entry => entry.2
                           | none => []) sfx value)) = .ok out := h
                    obtain ⟨ih1, ih2, ih3⟩ := ih conds _ out hndt h2
                    refine ⟨?_, ?_, ?_⟩
                    · intro hget
                      rw [hcons] at hget
                      exact ih1 hget
                    · intro hget
                      rw [hcons] at hget
                      exact ih2 hget
                    · intro hsub
                      exact ih3 (by exact @jsSet_forall_keys _ (fun x => x ≠ ("deletedAt")) subqs pre _ hsub hpre)
                  · rw [if_neg hsf] at h
                    cases value with
                    | raw v =>
                      have h2 : condLoop model rest conds
                          (jsSet subqs pre (lm, jsSet
                            (match jsGet subqs pre with
                             | some entry => entry.2
                             | none => []) sfx (.cc (.cmp v .eq false)))) = .ok out := h
                      obtain ⟨ih1, ih2, ih3⟩ := ih conds _ out hndt h2
                      refine ⟨?_, ?_, ?_⟩
                      · intro hget
                        rw [hcons] at hget
                        exact ih1 hget
                      · intro hget
                        rw [hcons] at hget
                        exact ih2 hget
                      · intro hsub
                        exact ih3 (by exact @jsSet_forall_keys _ (fun x => x ≠ ("deletedAt")) subqs pre _ hsub hpre)
                    | cc c =>
                      have h2 : condLoop model rest conds
                          (jsSet subqs pre (lm, jsSet
                            (match jsGet subqs pre with
                             | some entry => entry.2
                             | none => []) sfx (.cc c))) = .ok out := h
                      obtain ⟨ih1, ih2, ih3⟩ := ih conds _ out hndt h2
                      refine ⟨?_, ?_, ?_⟩
                      · intro hget
                        rw [hcons] at hget
                        exact ih1 hget
                      · intro hget
                        rw [hcons] at hget
                        exact ih2 hget
                      · intro hsub
                        exact ih3 (by exact @jsSet_forall_keys _ (fun x => x ≠ ("deletedAt")) subqs pre _ hsub hpre)
                    | strList l => exact nomatch h
                    | natv n => exact nomatch h
                | none =>
                  rw [hlm] at h
                  simp only at h
                  by_cases hsf : SPECIAL_QUERY_ARGS.contains sfx = true
                  · rw [if_pos hsf] at h
                    cases value with
                    | cc c =>
                      have h2 : condLoop model rest
                          (jsSet conds name (.cc c)) subqs = .ok out := h
                      obtain ⟨ih1, ih2, ih3⟩ := ih _ subqs out hndt h2
                      refine ⟨?_, ?_, ih3⟩
                      · intro hget
                        rw [hcons] at hget
                        exact ih1 hget
                      · intro hget
                        rw [hcons] at hget
                        rw [ih2 hget]
                        exact jsGet_jsSet_ne conds name ("deletedAt") _ hdne
                    | raw v => exact nomatch h
                    | strList l => exact nomatch h
                    | natv n => exact nomatch h
                  · rw [if_neg hsf] at h
                    cases value with
                    | raw v =>
                      have h2 : condLoop model rest
                          (jsSet conds name (.cc (.cmp v .eq false))) subqs = .ok out := h
                      obtain ⟨ih1, ih2, ih3⟩ := ih _ subqs out hndt h2
                      refine ⟨?_, ?_, ih3⟩
                      · intro hget
                        rw [hcons] at hget
                        exact ih1 hget
                      · intro hget
                        rw [hcons] at hget
                        rw [ih2 hget]
                        exact jsGet_jsSet_ne conds name ("deletedAt") _ hdne
                    | cc c =>
                      have h2 : condLoop model rest
                          (jsSet conds name (.cc c)) subqs = .ok out := h
                      obtain ⟨ih1, ih2, ih3⟩ := ih _ subqs out hndt h2
                      refine ⟨?_, ?_, ih3⟩
                      · intro hget
                        rw [hcons] at hget
                        exact ih1 hget
                      · intro hget
                        rw [hcons] at hget
                        rw [ih2 hget]
                        exact jsGet_jsSet_ne conds name ("deletedAt") _ hdne
                    | strList l => exact nomatch h
                    | natv n => exact nomatch h


theorem inlineSub_preserves (name : String) (lm : ClassModel) :
    ∀ (subconds : List (String × Cond)) (conds : List (String × Cond))
      (props : List (String × String))
      (cast : List (String × (Option String → Option String))),
      jsGet (inlineSub name lm subconds conds props cast).1 ("deletedAt") =
        jsGet conds ("deletedAt") ∧
      jsGet (inlineSub name lm subconds conds props cast).2.2 ("deletedAt") =
        jsGet cast ("deletedAt")
  | [], conds, props, cast => ⟨rfl, rfl⟩
  | (spn, sc) :: rest, conds, props, cast => by
    have hdne : ("deletedAt" : String) ≠ name ++ "." ++ spn :=
      fun he => dot_ne_deletedAt name spn he.symm
    simp only [inlineSub]
    cases hp : jsGet lm.properties spn with
    | none =>
      cases hc : jsGet lm.cast spn with
      | none =>
        obtain ⟨ih1, ih2⟩ := inlineSub_preserves name lm rest
          (jsSet conds (name ++ "." ++ spn) sc) props cast
        exact ⟨ih1.trans (jsGet_jsSet_ne conds (name ++ "." ++ spn) ("deletedAt") sc hdne),
          ih2⟩
      | some f =>
        obtain ⟨ih1, ih2⟩ := inlineSub_preserves name lm rest
          (jsSet conds (name ++ "." ++ spn) sc) props
          (jsSet cast (name ++ "." ++ spn) f)
        exact ⟨ih1.trans (jsGet_jsSet_ne conds (name ++ "." ++ spn) ("deletedAt") sc hdne),
          ih2.trans (jsGet_jsSet_ne cast (name ++ "." ++ spn) ("deletedAt") f hdne)⟩
    | some pd =>
      cases hc : jsGet lm.cast spn with
      | none =>
        obtain ⟨ih1, ih2⟩ := inlineSub_preserves name lm rest
          (jsSet conds (name ++ "." ++ spn) sc)
          (jsSet props (name ++ "." ++ spn) pd.ptype) cast
        exact ⟨ih1.trans (jsGet_jsSet_ne conds (name ++ "." ++ spn) ("deletedAt") sc hdne),
          ih2⟩
      | some f =>
        obtain ⟨ih1, ih2⟩ := inlineSub_preserves name lm rest
          (jsSet conds (name ++ "." ++ spn) sc)
          (jsSet props (name ++ "." ++ spn) pd.ptype)
          (jsSet cast (name ++ "." ++ spn) f)
        exact ⟨ih1.trans (jsGet_jsSet_ne conds (name ++ "." ++ spn) ("deletedAt") sc hdne),
          ih2.trans (jsGet_jsSet_ne cast (name ++ "." ++ spn) ("deletedAt") f hdne)⟩

theorem mkSubqueries_preserves :
    ∀ (subqs : List (String × (ClassModel × List (String × InVal)))) (fuel : Nat)
      (ao : Bool) (conds : List (String × Cond)) (props : List (String × String))
      (cast : List (String × (Option String → Option String)))
      (out : List (String × Cond) × List (String × String) ×
        List (String × (Option String → Option String))),
      (∀ e ∈ subqs, e.1 ≠ "deletedAt") →
      mkSubqueries fuel ao subqs conds props cast = .ok out →
      jsGet out.1 ("deletedAt") = jsGet conds ("deletedAt") ∧
      jsGet out.2.2 ("deletedAt") = jsGet cast ("deletedAt")
  | [], fuel, ao, conds, props, cast, out => by
    intro _ h
    simp only [mkSubqueries] at h
    injection h with h
    subst h
    exact ⟨rfl, rfl⟩
  | (name, (lmq, wl)) :: rest, fuel, ao, conds, props, cast, out => by
    intro hkeys h
    have hne : name ≠ ("deletedAt") :=
      hkeys (name, (lmq, wl)) (List.mem_cons_self _ _)
    have hkr : ∀ e ∈ rest, e.1 ≠ ("deletedAt") :=
      fun e he => hkeys e (List.mem_cons_of_mem _ he)
    cases fuel with
    | zero => exact nomatch h
    | succ fuel =>
      simp only [mkSubqueries] at h
      cases hms : mkSelQ fuel lmq wl ⟨some ao, none⟩ with
      | error e =>
        rw [hms] at h
        exact nomatch h
      | ok subq =>
        rw [hms] at h
        simp only at h
        by_cases hf : subq.follow.length = 0
        · rw [if_pos hf] at h
          obtain ⟨ih1, ih2⟩ := mkSubqueries_preserves rest fuel ao
            (inlineSub name lmq subq.conditions conds props cast).1
            (inlineSub name lmq subq.conditions conds props cast).2.1
            (inlineSub name lmq subq.conditions conds props cast).2.2 out hkr h
          obtain ⟨ip1, ip2⟩ := inlineSub_preserves name lmq subq.conditions conds props cast
          exact ⟨ih1.trans ip1, ih2.trans ip2⟩
        · rw [if_neg hf] at h
          obtain ⟨ih1, ih2⟩ := mkSubqueries_preserves rest fuel ao
            (jsSet conds name (.sub subq)) props cast out hkr h
          exact ⟨ih1.trans (jsGet_jsSet_ne conds name ("deletedAt") _
            (fun he => hne he.symm)), ih2⟩

theorem applyCasts_preserves (fuel : Nat)
    (cast : List (String × (Option String → Option String)))
    (hc : jsGet cast ("deletedAt") = none) :
    ∀ (l out : List (String × Cond)),
      applyCasts fuel cast l = some out →
      jsGet out ("deletedAt") = jsGet l ("deletedAt")
  | [], out => by
    intro h
    injection h with h
    subst h
    rfl
  | (n, c) :: rest, out => by
    intro h
    simp only [applyCasts] at h
    by_cases hn : n = ("deletedAt")
    · subst hn
      cases c with
      | sub q =>
        cases har : applyCasts fuel cast rest with
        | none =>
          rw [har] at h
          exact nomatch h
        | some rest1 =>
          rw [har] at h
          injection h with h
          subst h
          rw [jsGet_cons_self, jsGet_cons_self]
      | cc cmp =>
        rw [hc] at h
        cases har : applyCasts fuel cast rest with
        | none =>
          rw [har] at h
          exact nomatch h
        | some rest1 =>
          rw [har] at h
          injection h with h
          subst h
          rw [jsGet_cons_self, jsGet_cons_self]
    · cases hin : (match c with
        | Cond.sub q => some (Cond.sub q)
        | Cond.cc cmp =>
          match jsGet cast n with
          | some f =>
            match ccApplyCast fuel f cmp with
            | none => none
            | some cmp1 => some (Cond.cc cmp1)
          | none => some (Cond.cc cmp)) with
      | none =>
        rw [hin] at h
        exact nomatch h
      | some c2 =>
        rw [hin] at h
        cases har : applyCasts fuel cast rest with
        | none =>
          rw [har] at h
          exact nomatch h
        | some rest1 =>
          rw [har] at h
          injection h with h
          subst h
          rw [jsGet_cons_ne rest1 n _ c2 hn, jsGet_cons_ne rest n _ c hn]
          exact applyCasts_preserves fuel cast hc rest rest1 har

/-- C4 (amended: with activeOnly in force and a declared deletedAt property,
the constructor sets the deletedAt condition to the implicit IS NULL
comparison, overwriting any caller-supplied deletedAt condition rather than
keeping it): for every model declaring a non-link deletedAt property without
a cast, every input query (distinct keys, as a JS object guarantees) and
effective activeOnly, a successfully constructed SelectionQuery carries the
deletedAt-is-null condition. -/
theorem claim_c4_activeonly (fuel : Nat) (model : ClassModel)
    (iq0 : List (String × InVal)) (opt : SQOpt) (q : SelQ)
    (hname : model.propertyNames.contains ("deletedAt") = true)
    (hactive : opt.activeOnly.getD true = true)
    (hnodup : (iq0.map Prod.fst).Nodup)
    (hnolink : ∀ pd, jsGet model.properties ("deletedAt") = some pd →
      pd.linkedModel = none)
    (hnocast : jsGet model.cast ("deletedAt") = none)
    (hok : mkSelQ fuel model iq0 opt = .ok q) :
    jsGet q.conditions ("deletedAt") = some (.cc (.cmp none .eq false)) := by
  cases fuel with
  | zero => exact nomatch hok
  | succ fuel =>
    simp only [mkSelQ] at hok
    rw [hactive, hname] at hok
    have hif : (if ((true && true) = true) then jsSet iq0 ("deletedAt") (InVal.raw none)
        else iq0) = jsSet iq0 ("deletedAt") (InVal.raw none) := rfl
    rw [hif] at hok
    split at hok
    · exact nomatch hok
    · cases hcl : condLoop model (jsSet iq0 ("deletedAt") (InVal.raw none)) [] [] with
      | error e =>
        rw [hcl] at hok
        exact nomatch hok
      | ok co =>
        obtain ⟨conds0, subqs⟩ := co
        rw [hcl] at hok
        simp only at hok
        cases hms : mkSubqueries fuel true subqs conds0
            (model.properties.map (fun p => (p.1, (p.2).ptype))) model.cast with
        | error e =>
          rw [hms] at hok
          exact nomatch hok
        | ok out3 =>
          obtain ⟨conds1, props1, cast1⟩ := out3
          rw [hms] at hok
          simp only at hok
          cases hac : applyCasts fuel cast1 conds1 with
          | none =>
            rw [hac] at hok
            exact nomatch hok
          | some conds2 =>
            rw [hac] at hok
            injection hok with hok
            subst hok
            obtain ⟨h1, _, h3⟩ := condLoop_deletedAt model hnolink
              (jsSet iq0 ("deletedAt") (InVal.raw none)) [] [] (conds0, subqs)
              (jsSet_nodup_keys iq0 ("deletedAt") (InVal.raw none) hnodup) hcl
            have hc0 : jsGet conds0 ("deletedAt") =
                some (Cond.cc (.cmp none .eq false)) :=
              h1 (jsGet_jsSet_self iq0 ("deletedAt") (InVal.raw none))
            have hsub0 : ∀ e ∈ subqs, e.1 ≠ ("deletedAt") :=
              h3 (fun e he => absurd he (List.not_mem_nil e))
            obtain ⟨hm1, hm2⟩ := mkSubqueries_preserves subqs fuel true conds0
              (model.properties.map (fun p => (p.1, (p.2).ptype))) model.cast
              (conds1, props1, cast1) hsub0 hms
            have hcast1 : jsGet cast1 ("deletedAt") = none := hm2.trans hnocast
            have hfin := applyCasts_preserves fuel cast1 hcast1 conds1 conds2 hac
            show jsGet conds2 ("deletedAt") = _
            rw [hfin]
            exact hm1.trans hc0

/-- Witness for C4 on a concrete model and query with a caller-supplied
deletedAt condition. -/
theorem claim_c4_activeonly_witness :
    jsGet (SelQ.mk "Thing" [("name", "string"), ("deletedAt", "long")]
      [("name", .cc (.cmp (some "x") .eq false)),
       ("deletedAt", .cc (.cmp none .eq false))] [] none none).conditions
      ("deletedAt") = some (.cc (.cmp none .eq false)) :=
  claim_c4_activeonly 3
    (ClassModel.mk "Thing" ["name", "deletedAt"]
      [("name", PropDefn.mk "string" none), ("deletedAt", PropDefn.mk "long" none)]
      [] false)
    [("name", .raw (some "x")), ("deletedAt", .cc (.cmp (some "5") .eq false))]
    ⟨none, none⟩ _
    (by decide) rfl (by decide)
    (fun pd hpd => by
      have h2 : some (PropDefn.mk "long" none) = some pd := hpd
      injection h2 with h2
      rw [← h2]
      rfl)
    rfl rfl


end GKB
